import Mathlib

/-!
# SPI RAM FIFO (`components/audio/spiram_fifo.c`)

A shallow embedding of the byte FIFO that sits between the network producer
and the audio consumer, and the properties of its specification.

Modelling conventions.

* The C `int` / `long` globals are Lean `Int`s.  In a well-formed state
  (`Wf`) offsets and fill lie in `[0, capacity]` and chunk lengths in
  `[1, 64]`, so no `int` operation of the source leaves the 32-bit range.  The
  two `long` counters are 32 bits wide on the ESP32 and are only ever
  incremented by one or set to zero; the increment is modelled with the
  wrap-around of the target (`wrapLong`): at `LONG_MAX` it yields `LONG_MIN`.
* `fakespiram` is a function from offsets to bytes; the macros `spiRamWrite`
  and `spiRamRead` are the two `memcpy` directions.
* The binary semaphores `semCanRead` / `semCanWrite` are booleans (`true` =
  available).  `xSemaphoreGive` sets the boolean, `xSemaphoreTake` clears it
  when it is set and suspends the caller otherwise.
* `mux` is taken and given inside every critical section, so each critical
  section is one atomic step of the model.  Where the mutex itself matters (a
  reset suspended while it holds it) it is explicit, in `Guarded`.
* The `while` loops are driven by fuel.  A run ends `returned` (the loop
  condition failed), `blocked` (the caller is suspended on a semaphore that is
  not available, which in a sequential run is final) or `outOfFuel`.
* The three `#define` constants: `SPIREADSIZE` is fixed at 64; capacity and
  low watermark are collected in a `Build`, of which `compiled` is the one the
  source compiles.  The theorems are stated for every build (with a positive
  capacity where that is needed), so that the small scenarios of the
  specification can be evaluated; the one about the compiled constants is
  stated for `compiled`.
-/

namespace SpiRamFifo

/-- One C `char` of payload. -/
abbrev Byte := Fin 256

/-- Line 25: `#define SPIREADSIZE 64`. -/
def SPIREADSIZE : Int := 64

/-- The two size constants of lines 36 and 41. -/
structure Build where
  FIFO_SPIRAMSIZE : Int
  FIFO_LOWMARK : Int

/-- Lines 36 and 41: `FIFO_LOWMARK (112*1024)` and `FIFO_SPIRAMSIZE 200*1024`. -/
def compiled : Build :=
  { FIFO_SPIRAMSIZE := 200 * 1024, FIFO_LOWMARK := 112 * 1024 }

/-- The file-scope variables of lines 27-33 and 42. -/
structure State where
  fifoRpos : Int
  fifoWpos : Int
  fifoFill : Int
  fifoOvfCnt : Int
  fifoUdrCnt : Int
  semCanRead : Bool
  semCanWrite : Bool
  fakespiram : Int → Byte

/-- Line 45: `memcpy(&fakespiram[pos], buf, n)`. -/
def spiRamWrite (mem : Int → Byte) (pos : Int) (buf : List Byte) (n : Int) : Int → Byte :=
  fun a => if pos ≤ a ∧ a < pos + n then buf.getD (a - pos).toNat 0 else mem a

/-- Line 46: `memcpy(buf, &fakespiram[pos], n)`, as the list of bytes copied. -/
def spiRamRead (mem : Int → Byte) (pos : Int) (n : Int) : List Byte :=
  (List.range n.toNat).map (fun (i : Nat) => mem (pos + (i : Int)))

/-- Line 44: `#define spiRamTest() 1`. -/
def spiRamTest : Int := 1

/-- The state that lines 51-58 establish around the allocated block `mem`:
offsets, fill and counters zero; `vSemaphoreCreateBinary` creates each
semaphore and gives it once, so both start available. -/
def freshState (mem : Int → Byte) : State :=
  { fifoRpos := 0, fifoWpos := 0, fifoFill := 0, fifoOvfCnt := 0, fifoUdrCnt := 0,
    semCanRead := true, semCanWrite := true, fakespiram := mem }

/-- Lines 49-61, `spiRamFifoInit`.  The argument is what `pvPortMallocCaps`
hands back: `some mem` for a block with contents `mem`, `none` for `NULL`.
The result is the returned `int` and the instance, which exists only when
`fakespiram` is not `NULL`. -/
def spiRamFifoInit (alloc : Option (Int → Byte)) : Int × Option State :=
  (spiRamTest, alloc.map freshState)

/-- How a call ended. -/
inductive Status
  | returned
  | blocked
  | outOfFuel
  deriving DecidableEq

/-- What a loop iteration did, in program order. -/
inductive Event
  | spiRamWrite (pos n : Int)
  | spiRamRead (pos n : Int)
  | overflow
  | underflow
  | takeCanWrite
  | takeCanRead
  | retry
  deriving DecidableEq

/-- Result of `spiRamFifoReset`. -/
structure ResetRun where
  status : Status
  state : State

/-- Lines 63-73, `spiRamFifoReset`: zero the bookkeeping, give `semCanWrite`,
then take `semCanRead`; the call is suspended at line 71, still holding `mux`,
when `semCanRead` is not available. -/
def spiRamFifoReset (s : State) : ResetRun :=
  let s1 : State :=
    { s with fifoRpos := 0, fifoWpos := 0, fifoFill := 0, fifoOvfCnt := 0, fifoUdrCnt := 0,
             semCanWrite := true }
  if s1.semCanRead then ⟨Status.returned, { s1 with semCanRead := false }⟩
  else ⟨Status.blocked, s1⟩

/-- Lines 79-81 and 107-115: the chunk length for remaining length `len` at
offset `pos`. -/
def chunkLen (B : Build) (len pos : Int) : Int :=
  let n := len
  let n := if n > SPIREADSIZE then SPIREADSIZE else n
  if n > B.FIFO_SPIRAMSIZE - pos then B.FIFO_SPIRAMSIZE - pos else n

/-- Largest value of a `long` on the ESP32, where it is 32 bits wide. -/
def LONG_MAX : Int := 2147483647

/-- Smallest value of a `long` on the ESP32. -/
def LONG_MIN : Int := -2147483648

/-- The value `x` brought back into the range of a 32-bit `long`, as the
target's two's-complement arithmetic does: `LONG_MAX + 1` becomes `LONG_MIN`. -/
def wrapLong (x : Int) : Int :=
  (x + 2147483648) % 4294967296 - 2147483648

/-- Lines 86-87: the shortfall branch of the reader's critical section;
`fifoUdrCnt++` on a `long`. -/
def readMiss (s : State) : State :=
  { s with fifoUdrCnt := wrapLong (s.fifoUdrCnt + 1) }

/-- Lines 91-98: the successful branch of the reader, followed by the give of
`semCanWrite`. -/
def readHit (B : Build) (s : State) (n : Int) : State :=
  { s with fifoFill := s.fifoFill - n,
           fifoRpos := if s.fifoRpos + n ≥ B.FIFO_SPIRAMSIZE then 0 else s.fifoRpos + n,
           semCanWrite := true }

/-- Line 88: what the reader does after a shortfall, from the fill it observes
in state `s` once `mux` is released. -/
def readAfterMiss (B : Build) (s : State) : Event :=
  if s.fifoFill < B.FIFO_LOWMARK then Event.takeCanRead else Event.retry

/-- Lines 121-122: the shortfall branch of the writer's critical section;
`fifoOvfCnt++` on a `long`. -/
def writeMiss (s : State) : State :=
  { s with fifoOvfCnt := wrapLong (s.fifoOvfCnt + 1) }

/-- Lines 127-134: the successful branch of the writer, followed by the give
of `semCanRead`. -/
def writeHit (B : Build) (s : State) (buff : List Byte) (n : Int) : State :=
  { s with fakespiram := spiRamWrite s.fakespiram s.fifoWpos buff n,
           fifoFill := s.fifoFill + n,
           fifoWpos := if s.fifoWpos + n ≥ B.FIFO_SPIRAMSIZE then 0 else s.fifoWpos + n,
           semCanRead := true }

/-- Lines 83-97: the reader's critical section for a chunk length `n` that was
computed before `mux` was taken. -/
def readLocked (B : Build) (s : State) (n : Int) : State :=
  if s.fifoFill < n then readMiss s else readHit B s n

/-- Lines 118-133: the writer's critical section for a chunk length `n` that
was computed before `mux` was taken. -/
def writeLocked (B : Build) (s : State) (buff : List Byte) (n : Int) : State :=
  if B.FIFO_SPIRAMSIZE - s.fifoFill < n then writeMiss s else writeHit B s buff n

/-- One pass through the body of the reader's loop. -/
structure ReadIter where
  state : State
  chunk : List Byte
  len : Int
  events : List Event
  suspended : Bool

/-- Lines 79-99: one pass through the loop body of `spiRamFifoRead` with
remaining length `len`. -/
def readIter (B : Build) (s : State) (len : Int) : ReadIter :=
  let n := chunkLen B len s.fifoRpos
  if s.fifoFill < n then
    let s1 := readMiss s
    if readAfterMiss B s1 = Event.takeCanRead then
      if s1.semCanRead then
        ⟨{ s1 with semCanRead := false }, [], len, [Event.underflow, Event.takeCanRead], false⟩
      else ⟨s1, [], len, [Event.underflow, Event.takeCanRead], true⟩
    else ⟨s1, [], len, [Event.underflow, Event.retry], false⟩
  else
    ⟨readHit B s n, spiRamRead s.fakespiram s.fifoRpos n, len - n,
      [Event.spiRamRead s.fifoRpos n], false⟩

/-- Result of `spiRamFifoRead`: `out` is what was stored through `buff`, in
order; `len` is the remaining length. -/
structure ReadRun where
  status : Status
  state : State
  out : List Byte
  len : Int
  log : List Event

/-- Lines 76-101, `spiRamFifoRead`. -/
def spiRamFifoRead (B : Build) : Nat → State → Int → ReadRun
  | 0, s, len => ⟨if len > 0 then Status.outOfFuel else Status.returned, s, [], len, []⟩
  | fuel + 1, s, len =>
    if len > 0 then
      let it := readIter B s len
      if it.suspended then ⟨Status.blocked, it.state, it.chunk, it.len, it.events⟩
      else
        let r := spiRamFifoRead B fuel it.state it.len
        { r with out := it.chunk ++ r.out, log := it.events ++ r.log }
    else ⟨Status.returned, s, [], len, []⟩

/-- One pass through the body of the writer's loop. -/
structure WriteIter where
  state : State
  buff : List Byte
  buffLen : Int
  events : List Event
  suspended : Bool

/-- Lines 107-135: one pass through the loop body of `spiRamFifoWrite`; `buff`
holds the bytes from the current pointer on. -/
def writeIter (B : Build) (s : State) (buff : List Byte) (buffLen : Int) : WriteIter :=
  let n := chunkLen B buffLen s.fifoWpos
  if B.FIFO_SPIRAMSIZE - s.fifoFill < n then
    let s1 := writeMiss s
    if s1.semCanWrite then
      ⟨{ s1 with semCanWrite := false }, buff, buffLen, [Event.overflow, Event.takeCanWrite], false⟩
    else ⟨s1, buff, buffLen, [Event.overflow, Event.takeCanWrite], true⟩
  else
    ⟨writeHit B s buff n, buff.drop n.toNat, buffLen - n,
      [Event.spiRamWrite s.fifoWpos n], false⟩

/-- Result of `spiRamFifoWrite`; `buffLen` is the remaining length. -/
structure WriteRun where
  status : Status
  state : State
  buffLen : Int
  log : List Event

/-- Lines 104-137, `spiRamFifoWrite`. -/
def spiRamFifoWrite (B : Build) : Nat → State → List Byte → Int → WriteRun
  | 0, s, _, buffLen =>
    ⟨if buffLen > 0 then Status.outOfFuel else Status.returned, s, buffLen, []⟩
  | fuel + 1, s, buff, buffLen =>
    if buffLen > 0 then
      let it := writeIter B s buff buffLen
      if it.suspended then ⟨Status.blocked, it.state, it.buffLen, it.events⟩
      else
        let r := spiRamFifoWrite B fuel it.state it.buff it.buffLen
        { r with log := it.events ++ r.log }
    else ⟨Status.returned, s, buffLen, []⟩

/-- Lines 140-146, `spiRamFifoFill`. -/
def spiRamFifoFill (s : State) : Int := s.fifoFill

/-- Lines 148-150, `spiRamFifoFree`. -/
def spiRamFifoFree (B : Build) (s : State) : Int := B.FIFO_SPIRAMSIZE - spiRamFifoFill s

/-- Lines 152-154, `spiRamFifoLen`. -/
def spiRamFifoLen (B : Build) : Int := B.FIFO_SPIRAMSIZE

/-- Lines 156-162, `spiRamGetOverrunCt`. -/
def spiRamGetOverrunCt (s : State) : Int := s.fifoOvfCnt

/-- Lines 164-170, `spiRamGetUnderrunCt`. -/
def spiRamGetUnderrunCt (s : State) : Int := s.fifoUdrCnt

/-- The well-formed states: offsets inside the store, fill within the
capacity, and the write offset `fill` bytes ahead of the read offset. -/
def Wf (B : Build) (s : State) : Prop :=
  0 ≤ s.fifoRpos ∧ s.fifoRpos < B.FIFO_SPIRAMSIZE ∧
  0 ≤ s.fifoWpos ∧ s.fifoWpos < B.FIFO_SPIRAMSIZE ∧
  0 ≤ s.fifoFill ∧ s.fifoFill ≤ B.FIFO_SPIRAMSIZE ∧
  s.fifoWpos = (s.fifoRpos + s.fifoFill) % B.FIFO_SPIRAMSIZE

/-- The buffered bytes, oldest first. -/
def contents (B : Build) (s : State) : List Byte :=
  (List.range s.fifoFill.toNat).map
    (fun (i : Nat) => s.fakespiram ((s.fifoRpos + (i : Int)) % B.FIFO_SPIRAMSIZE))

instance (B : Build) (s : State) : Decidable (Wf B s) := by
  unfold Wf
  infer_instance

/-- A caller that issues the writes `ws` one after the other, each with its
own length; `none` when one of them does not return. -/
def writeAll (B : Build) (fuel : Nat) : State → List (List Byte) → Option State
  | s, [] => some s
  | s, w :: ws =>
    if (spiRamFifoWrite B fuel s w w.length).status = Status.returned then
      writeAll B fuel (spiRamFifoWrite B fuel s w w.length).state ws
    else none

/-- A caller that issues reads of the lengths `ks` one after the other and
collects what each returned; `none` when one of them does not return. -/
def readAll (B : Build) (fuel : Nat) : State → List Nat → Option (State × List (List Byte))
  | s, [] => some (s, [])
  | s, k :: ks =>
    if (spiRamFifoRead B fuel s k).status = Status.returned then
      match readAll B fuel (spiRamFifoRead B fuel s k).state ks with
      | some (t, outs) => some (t, (spiRamFifoRead B fuel s k).out :: outs)
      | none => none
    else none

/-- A caller that writes `buff` and then reads `k` bytes. -/
def writeThenRead (B : Build) (fuelW fuelR : Nat) (s : State) (buff : List Byte) (k : Int) :
    WriteRun × ReadRun :=
  (spiRamFifoWrite B fuelW s buff buff.length,
    spiRamFifoRead B fuelR (spiRamFifoWrite B fuelW s buff buff.length).state k)

/-- The states an initialised instance can be in between critical sections,
for one reader, one writer and any number of resets, interleaved in any order.
A chunk length is computed from the offset `pos` that its side saw before it
took `mux`; only a reset can have moved that offset since, and then it is 0.
Semaphores may be given and taken at any time. -/
inductive Reachable (B : Build) : State → Prop
  | init (mem : Int → Byte) : Reachable B (freshState mem)
  | reset (s : State) : Reachable B s → Reachable B (spiRamFifoReset s).state
  | read (s : State) (len pos : Int) : Reachable B s → 0 < len →
      0 ≤ pos → pos < B.FIFO_SPIRAMSIZE → (s.fifoRpos = pos ∨ s.fifoRpos = 0) →
      Reachable B (readLocked B s (chunkLen B len pos))
  | write (s : State) (buff : List Byte) (len pos : Int) : Reachable B s → 0 < len →
      0 ≤ pos → pos < B.FIFO_SPIRAMSIZE → (s.fifoWpos = pos ∨ s.fifoWpos = 0) →
      Reachable B (writeLocked B s buff (chunkLen B len pos))
  | sems (s : State) (canRead canWrite : Bool) : Reachable B s →
      Reachable B { s with semCanRead := canRead, semCanWrite := canWrite }

/-- A build with a low watermark below the chunk size: capacity 100, low
watermark 8. -/
def shallow : Build := { FIFO_SPIRAMSIZE := 100, FIFO_LOWMARK := 8 }

/-- A small build for evaluating scenarios: capacity 100, low watermark 50. -/
def tiny : Build := { FIFO_SPIRAMSIZE := 100, FIFO_LOWMARK := 50 }

/-- The build of scenarios A and B: capacity 1024, low watermark 512. -/
def kilo : Build := { FIFO_SPIRAMSIZE := 1024, FIFO_LOWMARK := 512 }

/-- Test payload: byte `i` has value `i mod 256`. -/
def ramp (n : Nat) : List Byte := (List.range n).map (fun (i : Nat) => Fin.ofNat i)

/-- An empty instance whose two offsets stand at `pos`, over zeroed storage. -/
def emptyAt (pos : Int) : State :=
  { freshState (fun _ => 0) with fifoRpos := pos, fifoWpos := pos }

/-- The capacity-100 instance filled to capacity from offset 80. -/
def fullAt80 : State :=
  (spiRamFifoWrite tiny 100 (emptyAt 80) (ramp 100) 100).state

/-- A capacity-100 instance holding 10 bytes from offset 0. -/
def tenBytes : State :=
  { freshState (fun _ => 0) with fifoWpos := 10, fifoFill := 10 }

/-- Relation between the state `s` before and the state `t` after `buff` has
been appended at the write offset without a shortfall. -/
structure Stored (B : Build) (s : State) (buff : List Byte) (t : State) : Prop where
  wf : Wf B t
  rpos : t.fifoRpos = s.fifoRpos
  wpos : t.fifoWpos = (s.fifoWpos + (buff.length : Int)) % B.FIFO_SPIRAMSIZE
  fill : t.fifoFill = s.fifoFill + (buff.length : Int)
  ovf : t.fifoOvfCnt = s.fifoOvfCnt
  udr : t.fifoUdrCnt = s.fifoUdrCnt
  semW : t.semCanWrite = s.semCanWrite
  semR : t.semCanRead = (s.semCanRead || decide (buff ≠ []))
  placed : ∀ i : Nat, i < buff.length →
    t.fakespiram ((s.fifoWpos + (i : Int)) % B.FIFO_SPIRAMSIZE) = buff.getD i 0
  frame : ∀ a : Int, (∀ i : Nat, i < buff.length →
    a ≠ (s.fifoWpos + (i : Int)) % B.FIFO_SPIRAMSIZE) → t.fakespiram a = s.fakespiram a

/-- Relation between the state `s` before and the state `t` after `k` bytes
have been consumed at the read offset without a shortfall. -/
structure Taken (B : Build) (s : State) (k : Nat) (t : State) : Prop where
  wf : Wf B t
  rpos : t.fifoRpos = (s.fifoRpos + (k : Int)) % B.FIFO_SPIRAMSIZE
  wpos : t.fifoWpos = s.fifoWpos
  fill : t.fifoFill = s.fifoFill - (k : Int)
  ovf : t.fifoOvfCnt = s.fifoOvfCnt
  udr : t.fifoUdrCnt = s.fifoUdrCnt
  semR : t.semCanRead = s.semCanRead
  semW : t.semCanWrite = (s.semCanWrite || decide (k ≠ 0))
  mem : t.fakespiram = s.fakespiram

/-- The full capacity-100 instance after one more pass of the writer's loop
body, which finds no room: its overflow counter is 1. -/
def overflowed : State := (writeIter tiny fullAt80 [255] 1).state

/-- Agreement of two states on read offset, write offset, fill, both
semaphores and the backing store, that is on everything but the counters. -/
def SameButCounters (s t : State) : Prop :=
  s.fifoRpos = t.fifoRpos ∧ s.fifoWpos = t.fifoWpos ∧ s.fifoFill = t.fifoFill ∧
  s.semCanRead = t.semCanRead ∧ s.semCanWrite = t.semCanWrite ∧
  s.fakespiram = t.fakespiram

/-- The state `tenBytes` with other counter values. -/
def tenBytesCounted : State :=
  { tenBytes with fifoOvfCnt := 5, fifoUdrCnt := 9 }

/-- Any number of passes of the writer's loop body run one after the other,
each with its own buffer and remaining length. -/
def writePasses (B : Build) : State → List (List Byte × Int) → State
  | s, [] => s
  | s, p :: ps => writePasses B (writeIter B s p.1 p.2).state ps

/-- Any number of passes of the reader's loop body run one after the other,
each with its own remaining length. -/
def readPasses (B : Build) : State → List Int → State
  | s, [] => s
  | s, len :: ls => readPasses B (readIter B s len).state ls

/-- The instance together with `mux` (`true` = available). -/
structure Guarded where
  state : State
  mux : Bool

/-- How a call or pass on a guarded instance ended, and the instance then. -/
structure GuardedRun where
  status : Status
  after : Guarded

/-- Lines 63-73 with `mux` explicit: line 64 takes it, and the caller is
suspended there when it is not available; lines 65-70 run under it; line 71
waits for `semCanRead` still holding it; line 72 gives it back. -/
def resetGuarded (g : Guarded) : GuardedRun :=
  if g.mux then
    let s1 : State :=
      { g.state with fifoRpos := 0, fifoWpos := 0, fifoFill := 0, fifoOvfCnt := 0,
                     fifoUdrCnt := 0, semCanWrite := true }
    if s1.semCanRead then ⟨Status.returned, ⟨{ s1 with semCanRead := false }, true⟩⟩
    else ⟨Status.blocked, ⟨s1, false⟩⟩
  else ⟨Status.blocked, g⟩

/-- Lines 79-99 with `mux` explicit: the pass is suspended at line 82 when
`mux` is not available; otherwise its critical section runs and gives `mux`
back before any semaphore is touched. -/
def readIterGuarded (B : Build) (g : Guarded) (len : Int) : GuardedRun :=
  if g.mux then
    ⟨if (readIter B g.state len).suspended then Status.blocked else Status.returned,
      ⟨(readIter B g.state len).state, true⟩⟩
  else ⟨Status.blocked, g⟩

/-- Lines 107-135 with `mux` explicit: the pass is suspended at line 117 when
`mux` is not available. -/
def writeIterGuarded (B : Build) (g : Guarded) (buff : List Byte) (len : Int) : GuardedRun :=
  if g.mux then
    ⟨if (writeIter B g.state buff len).suspended then Status.blocked else Status.returned,
      ⟨(writeIter B g.state buff len).state, true⟩⟩
  else ⟨Status.blocked, g⟩

/-- What a thread that is outside the interface can start next. -/
inductive Op
  | read (len : Int)
  | write (buff : List Byte) (len : Int)
  | reset

/-- The instance after such a thread has taken its first step: the first pass
through the loop body of a read or a write, or a reset. -/
def attempt (B : Build) (g : Guarded) : Op → Guarded
  | Op.read len => (readIterGuarded B g len).after
  | Op.write buff len => (writeIterGuarded B g buff len).after
  | Op.reset => (resetGuarded g).after

/-- The instance after any number of such attempts. -/
def attempts (B : Build) (g : Guarded) (ops : List Op) : Guarded :=
  ops.foldl (attempt B) g

/-- Number of shortfall attempts of the reader recorded in a log. -/
def underflows : List Event → Nat
  | [] => 0
  | Event.underflow :: es => underflows es + 1
  | _ :: es => underflows es

/-- Number of shortfall attempts of the writer recorded in a log. -/
def overflows : List Event → Nat
  | [] => 0
  | Event.overflow :: es => overflows es + 1
  | _ :: es => overflows es

/-- The empty instance after `n` shortfall attempts of the reader and nothing
else. -/
def starved (n : Int) : State :=
  { freshState (fun _ => 0) with fifoUdrCnt := n }

/-- The empty instance whose underflow counter has reached `LONG_MAX`. -/
def udrAtMax : State := starved LONG_MAX

/-! ## Arithmetic of chunks and offsets -/

theorem chunkLen_bounds (B : Build) (len pos : Int) (hlen : 0 < len)
    (hpos : pos < B.FIFO_SPIRAMSIZE) :
    1 ≤ chunkLen B len pos ∧ chunkLen B len pos ≤ len ∧ chunkLen B len pos ≤ SPIREADSIZE ∧
      chunkLen B len pos ≤ B.FIFO_SPIRAMSIZE - pos := by
  unfold chunkLen SPIREADSIZE
  simp only []
  split_ifs <;> omega

theorem wrap_eq_emod (C pos n : Int) (h0 : 0 ≤ pos) (hn : 0 ≤ n) (h : pos + n ≤ C) :
    (if pos + n ≥ C then 0 else pos + n) = (pos + n) % C := by
  split_ifs with hge
  · have : pos + n = C := by omega
    rw [this, Int.emod_self]
  · rw [Int.emod_eq_of_lt (by omega) (by omega)]

theorem emod_inj_of_near (C x y : Int) (h : x % C = y % C) (hxy : x ≤ y) (hlt : y - x < C) :
    x = y := by
  have hd : C ∣ (y - x) := by
    have := (Int.emod_eq_emod_iff_emod_sub_eq_zero).1 h.symm
    exact Int.dvd_of_emod_eq_zero this
  have : y - x = 0 := by
    apply Int.eq_zero_of_abs_lt_dvd hd
    rw [abs_of_nonneg (by omega)]
    exact hlt
  omega

/-! ## Single chunks -/

theorem writeHit_wf (B : Build) (s : State) (buff : List Byte) (n : Int) (hwf : Wf B s)
    (hn : 0 ≤ n) (hpos : n ≤ B.FIFO_SPIRAMSIZE - s.fifoWpos)
    (hfree : n ≤ B.FIFO_SPIRAMSIZE - s.fifoFill) : Wf B (writeHit B s buff n) := by
  obtain ⟨h1, h2, h3, h4, h5, h6, h7⟩ := hwf
  have hw : (writeHit B s buff n).fifoWpos = (s.fifoWpos + n) % B.FIFO_SPIRAMSIZE :=
    wrap_eq_emod _ _ _ h3 hn (by omega)
  refine ⟨h1, h2, ?_, ?_, ?_, ?_, ?_⟩
  · rw [hw]; exact Int.emod_nonneg _ (by omega)
  · rw [hw]; exact Int.emod_lt_of_pos _ (by omega)
  · show 0 ≤ s.fifoFill + n
    omega
  · show s.fifoFill + n ≤ B.FIFO_SPIRAMSIZE
    omega
  · rw [hw, h7, Int.emod_add_emod]
    show _ = (s.fifoRpos + (s.fifoFill + n)) % _
    rw [Int.add_assoc]

theorem readHit_wf (B : Build) (s : State) (n : Int) (hwf : Wf B s)
    (hn : 0 ≤ n) (hpos : n ≤ B.FIFO_SPIRAMSIZE - s.fifoRpos)
    (hfill : n ≤ s.fifoFill) : Wf B (readHit B s n) := by
  obtain ⟨h1, h2, h3, h4, h5, h6, h7⟩ := hwf
  have hr : (readHit B s n).fifoRpos = (s.fifoRpos + n) % B.FIFO_SPIRAMSIZE :=
    wrap_eq_emod _ _ _ h1 hn (by omega)
  refine ⟨?_, ?_, h3, h4, ?_, ?_, ?_⟩
  · rw [hr]; exact Int.emod_nonneg _ (by omega)
  · rw [hr]; exact Int.emod_lt_of_pos _ (by omega)
  · show 0 ≤ s.fifoFill - n
    omega
  · show s.fifoFill - n ≤ B.FIFO_SPIRAMSIZE
    omega
  · rw [hr, Int.emod_add_emod]
    show s.fifoWpos = (s.fifoRpos + n + (s.fifoFill - n)) % _
    rw [h7]
    congr 1
    omega

/-! ## Whole calls without shortfall -/

theorem spiRamFifoWrite_step (B : Build) (fuel : Nat) (s : State) (buff : List Byte)
    (buffLen : Int) (hlen : 0 < buffLen)
    (hroom : ¬ B.FIFO_SPIRAMSIZE - s.fifoFill < chunkLen B buffLen s.fifoWpos) :
    spiRamFifoWrite B (fuel + 1) s buff buffLen =
      { spiRamFifoWrite B fuel (writeHit B s buff (chunkLen B buffLen s.fifoWpos))
          (buff.drop (chunkLen B buffLen s.fifoWpos).toNat)
          (buffLen - chunkLen B buffLen s.fifoWpos) with
        log := Event.spiRamWrite s.fifoWpos (chunkLen B buffLen s.fifoWpos) ::
          (spiRamFifoWrite B fuel (writeHit B s buff (chunkLen B buffLen s.fifoWpos))
            (buff.drop (chunkLen B buffLen s.fifoWpos).toNat)
            (buffLen - chunkLen B buffLen s.fifoWpos)).log } := by
  simp [spiRamFifoWrite, writeIter, hlen, hroom]

theorem spiRamFifoRead_step (B : Build) (fuel : Nat) (s : State) (len : Int) (hlen : 0 < len)
    (hdata : ¬ s.fifoFill < chunkLen B len s.fifoRpos) :
    spiRamFifoRead B (fuel + 1) s len =
      { spiRamFifoRead B fuel (readHit B s (chunkLen B len s.fifoRpos))
          (len - chunkLen B len s.fifoRpos) with
        out := spiRamRead s.fakespiram s.fifoRpos (chunkLen B len s.fifoRpos) ++
          (spiRamFifoRead B fuel (readHit B s (chunkLen B len s.fifoRpos))
            (len - chunkLen B len s.fifoRpos)).out
        log := Event.spiRamRead s.fifoRpos (chunkLen B len s.fifoRpos) ::
          (spiRamFifoRead B fuel (readHit B s (chunkLen B len s.fifoRpos))
            (len - chunkLen B len s.fifoRpos)).log } := by
  simp [spiRamFifoRead, readIter, hlen, hdata]

theorem stored_nil (B : Build) (s : State) (hwf : Wf B s) : Stored B s [] s := by
  obtain ⟨h1, h2, h3, h4, h5, h6, h7⟩ := hwf
  refine ⟨⟨h1, h2, h3, h4, h5, h6, h7⟩, rfl, ?_, ?_, rfl, rfl, rfl, ?_, ?_, ?_⟩
  · simp [Int.emod_eq_of_lt h3 h4]
  · simp
  · simp
  · intro i hi; simp at hi
  · intro a _; rfl

theorem writeHit_wpos (B : Build) (s : State) (buff : List Byte) (n : Int)
    (h0 : 0 ≤ s.fifoWpos) (hn : 0 ≤ n) (h : s.fifoWpos + n ≤ B.FIFO_SPIRAMSIZE) :
    (writeHit B s buff n).fifoWpos = (s.fifoWpos + n) % B.FIFO_SPIRAMSIZE :=
  wrap_eq_emod _ _ _ h0 hn h

theorem readHit_rpos (B : Build) (s : State) (n : Int)
    (h0 : 0 ≤ s.fifoRpos) (hn : 0 ≤ n) (h : s.fifoRpos + n ≤ B.FIFO_SPIRAMSIZE) :
    (readHit B s n).fifoRpos = (s.fifoRpos + n) % B.FIFO_SPIRAMSIZE :=
  wrap_eq_emod _ _ _ h0 hn h

theorem stored_chunk (B : Build) (s t : State) (buff : List Byte) (m : Nat)
    (hwf : Wf B s) (hm1 : 1 ≤ m) (hm : m ≤ buff.length)
    (hpos : s.fifoWpos + (m : Int) ≤ B.FIFO_SPIRAMSIZE)
    (hroom : (buff.length : Int) ≤ B.FIFO_SPIRAMSIZE - s.fifoFill)
    (ht : Stored B (writeHit B s buff m) (buff.drop m) t) : Stored B s buff t := by
  obtain ⟨h1, h2, h3, h4, h5, h6, h7⟩ := hwf
  have hw1 := writeHit_wpos B s buff m h3 (by omega) hpos
  have hlen : ((buff.drop m).length : Int) = (buff.length : Int) - (m : Int) := by
    rw [List.length_drop]; omega
  have hshift : ∀ j : Int, ((writeHit B s buff m).fifoWpos + j) % B.FIFO_SPIRAMSIZE =
      (s.fifoWpos + ((m : Int) + j)) % B.FIFO_SPIRAMSIZE := by
    intro j
    rw [hw1, Int.emod_add_emod, Int.add_assoc]
  have hne : buff ≠ [] := by
    intro h; rw [h] at hm; simp at hm; omega
  refine ⟨ht.wf, ht.rpos, ?_, ?_, ht.ovf, ht.udr, ht.semW, ?_, ?_, ?_⟩
  · rw [ht.wpos, hshift, hlen]
    congr 2
    omega
  · rw [ht.fill, hlen]
    show s.fifoFill + (m : Int) + _ = _
    omega
  · rw [ht.semR]
    simp [writeHit, hne]
  · intro i hi
    by_cases him : i < m
    · have hnowrap : (s.fifoWpos + (i : Int)) % B.FIFO_SPIRAMSIZE = s.fifoWpos + (i : Int) :=
        Int.emod_eq_of_lt (by omega) (by omega)
      rw [hnowrap, ht.frame]
      · show spiRamWrite s.fakespiram s.fifoWpos buff m (s.fifoWpos + (i : Int)) = _
        unfold spiRamWrite
        rw [if_pos (by omega)]
        congr 1
        omega
      · intro j hj heq
        rw [hshift, ← hnowrap] at heq
        have hj2 : (j : Int) < (buff.length : Int) - (m : Int) := by
          rw [← hlen]; exact_mod_cast hj
        have := emod_inj_of_near _ _ _ heq (by omega) (by omega)
        omega
    · have hj : i - m < (buff.drop m).length := by
        rw [List.length_drop]; omega
      have := ht.placed (i - m) hj
      rw [hshift] at this
      have hidx : (m : Int) + ((i - m : Nat) : Int) = (i : Int) := by omega
      rw [hidx] at this
      rw [this, List.getD_eq_getElem?_getD, List.getD_eq_getElem?_getD, List.getElem?_drop]
      congr 2
      omega
  · intro a ha
    rw [ht.frame]
    · show spiRamWrite s.fakespiram s.fifoWpos buff m a = _
      unfold spiRamWrite
      rw [if_neg]
      intro hin
      have hnat : (a - s.fifoWpos).toNat < buff.length := by omega
      apply ha (a - s.fifoWpos).toNat hnat
      rw [Int.toNat_of_nonneg (by omega)]
      rw [Int.emod_eq_of_lt (by omega) (by omega)]
      omega
    · intro j hj
      rw [hshift]
      have hj2 : m + j < buff.length := by
        rw [List.length_drop] at hj; omega
      have := ha (m + j) hj2
      rwa [Nat.cast_add] at this

theorem spiRamFifoWrite_ok (B : Build) :
    ∀ (fuel : Nat) (s : State) (buff : List Byte), Wf B s →
      (buff.length : Int) ≤ B.FIFO_SPIRAMSIZE - s.fifoFill → buff.length ≤ fuel →
      (spiRamFifoWrite B fuel s buff buff.length).status = Status.returned ∧
      (spiRamFifoWrite B fuel s buff buff.length).buffLen = 0 ∧
      Stored B s buff (spiRamFifoWrite B fuel s buff buff.length).state ∧
      ∀ e ∈ (spiRamFifoWrite B fuel s buff buff.length).log,
        ∃ pos n, e = Event.spiRamWrite pos n := by
  intro fuel
  induction fuel with
  | zero =>
    intro s buff hwf _ hfuel
    have hnil : buff = [] := List.length_eq_zero.1 (by omega)
    subst hnil
    simp [spiRamFifoWrite, stored_nil B s hwf]
  | succ fuel ih =>
    intro s buff hwf hroom hfuel
    by_cases hnil : buff = []
    · subst hnil
      simp [spiRamFifoWrite, stored_nil B s hwf]
    · have hpos : 0 < (buff.length : Int) := by
        have := List.length_pos.2 hnil
        omega
      obtain ⟨c1, c2, c3, c4⟩ := chunkLen_bounds B buff.length s.fifoWpos hpos hwf.2.2.2.1
      obtain ⟨m, hm⟩ := Int.eq_ofNat_of_zero_le (by omega : 0 ≤ chunkLen B buff.length s.fifoWpos)
      rw [spiRamFifoWrite_step B fuel s buff buff.length hpos (by omega)]
      rw [hm] at c1 c2 c3 c4 ⊢
      have hlen : (buff.length : Int) - (m : Int) = ((buff.drop m).length : Int) := by
        rw [List.length_drop]; omega
      simp only [Int.toNat_ofNat, hlen]
      have hwf1 : Wf B (writeHit B s buff m) :=
        writeHit_wf B s buff m hwf (by omega) c4 (by omega)
      have hroom1 : ((buff.drop m).length : Int) ≤
          B.FIFO_SPIRAMSIZE - (writeHit B s buff m).fifoFill := by
        rw [← hlen]
        show _ ≤ B.FIFO_SPIRAMSIZE - (s.fifoFill + (m : Int))
        omega
      have hfuel1 : (buff.drop m).length ≤ fuel := by
        rw [List.length_drop]; omega
      obtain ⟨i1, i2, i3, i4⟩ := ih (writeHit B s buff m) (buff.drop m) hwf1 hroom1 hfuel1
      refine ⟨i1, i2, ?_, ?_⟩
      · exact stored_chunk B s _ buff m hwf (by omega) (by omega) (by omega) hroom i3
      · intro e he
        rcases List.mem_cons.1 he with h | h
        · exact ⟨_, _, h⟩
        · exact i4 e h

theorem taken_zero (B : Build) (s : State) (hwf : Wf B s) : Taken B s 0 s := by
  have h1 := hwf.1
  have h2 := hwf.2.1
  refine ⟨hwf, ?_, rfl, ?_, rfl, rfl, rfl, ?_, rfl⟩
  · simp [Int.emod_eq_of_lt h1 h2]
  · simp
  · simp

theorem taken_chunk (B : Build) (s t : State) (k m : Nat)
    (hwf : Wf B s) (hm1 : 1 ≤ m) (hm : m ≤ k)
    (hpos : s.fifoRpos + (m : Int) ≤ B.FIFO_SPIRAMSIZE)
    (ht : Taken B (readHit B s m) (k - m) t) : Taken B s k t := by
  have hr1 := readHit_rpos B s m hwf.1 (by omega) hpos
  refine ⟨ht.wf, ?_, ht.wpos, ?_, ht.ovf, ht.udr, ht.semR, ?_, ht.mem⟩
  · rw [ht.rpos, hr1, Int.emod_add_emod, Int.add_assoc]
    congr 2
    omega
  · rw [ht.fill]
    show s.fifoFill - (m : Int) - _ = _
    omega
  · rw [ht.semW]
    have : k ≠ 0 := by omega
    simp [readHit, this]

theorem range_map_split (C r : Int) (mem : Int → Byte) (k m : Nat) (hm : m ≤ k)
    (h0 : 0 ≤ r) (hpos : r + (m : Int) ≤ C) :
    (List.range k).map (fun (i : Nat) => mem ((r + (i : Int)) % C)) =
      (List.range m).map (fun (i : Nat) => mem (r + (i : Int))) ++
        (List.range (k - m)).map (fun (i : Nat) => mem (((r + (m : Int)) % C + (i : Int)) % C)) := by
  obtain ⟨j, rfl⟩ : ∃ j, k = m + j := ⟨k - m, by omega⟩
  rw [Nat.add_sub_cancel_left, List.range_add, List.map_append, List.map_map]
  congr 1
  · apply List.map_congr_left
    intro i hi
    have := List.mem_range.1 hi
    show mem _ = mem _
    rw [Int.emod_eq_of_lt (by omega) (by omega)]
  · apply List.map_congr_left
    intro i _
    show mem _ = mem _
    rw [Int.emod_add_emod, Nat.cast_add, Int.add_assoc]

theorem spiRamFifoRead_ok (B : Build) :
    ∀ (fuel : Nat) (s : State) (k : Nat), Wf B s → (k : Int) ≤ s.fifoFill → k ≤ fuel →
      (spiRamFifoRead B fuel s k).status = Status.returned ∧
      (spiRamFifoRead B fuel s k).len = 0 ∧
      (spiRamFifoRead B fuel s k).out =
        (List.range k).map
          (fun (i : Nat) => s.fakespiram ((s.fifoRpos + (i : Int)) % B.FIFO_SPIRAMSIZE)) ∧
      Taken B s k (spiRamFifoRead B fuel s k).state ∧
      ∀ e ∈ (spiRamFifoRead B fuel s k).log, ∃ pos n, e = Event.spiRamRead pos n := by
  intro fuel
  induction fuel with
  | zero =>
    intro s k hwf _ hfuel
    have hk : k = 0 := by omega
    subst hk
    simp [spiRamFifoRead, taken_zero B s hwf]
  | succ fuel ih =>
    intro s k hwf hfill hfuel
    by_cases hk : k = 0
    · subst hk
      simp [spiRamFifoRead, taken_zero B s hwf]
    · have hpos : 0 < (k : Int) := by omega
      obtain ⟨c1, c2, c3, c4⟩ := chunkLen_bounds B k s.fifoRpos hpos hwf.2.1
      obtain ⟨m, hm⟩ := Int.eq_ofNat_of_zero_le (by omega : 0 ≤ chunkLen B k s.fifoRpos)
      rw [spiRamFifoRead_step B fuel s k hpos (by omega)]
      rw [hm] at c1 c2 c3 c4 ⊢
      have hlen : (k : Int) - (m : Int) = ((k - m : Nat) : Int) := by omega
      simp only [hlen]
      have hwf1 : Wf B (readHit B s m) := readHit_wf B s m hwf (by omega) c4 (by omega)
      have hfill1 : ((k - m : Nat) : Int) ≤ (readHit B s m).fifoFill := by
        show _ ≤ s.fifoFill - (m : Int)
        omega
      obtain ⟨i1, i2, i3, i4, i5⟩ := ih (readHit B s m) (k - m) hwf1 hfill1 (by omega)
      refine ⟨i1, i2, ?_, ?_, ?_⟩
      · show spiRamRead s.fakespiram s.fifoRpos m ++ _ = _
        rw [i3, range_map_split B.FIFO_SPIRAMSIZE s.fifoRpos s.fakespiram k m (by omega) hwf.1
          (by omega)]
        rw [readHit_rpos B s m hwf.1 (by omega) (by omega)]
        rfl
      · exact taken_chunk B s _ k m hwf (by omega) (by omega) (by omega) i4
      · intro e he
        rcases List.mem_cons.1 he with h | h
        · exact ⟨_, _, h⟩
        · exact i5 e h

/-! ## The buffered bytes as a queue -/

theorem range_map_getD (l : List Byte) :
    (List.range l.length).map (fun (i : Nat) => l.getD i 0) = l := by
  apply List.ext_getElem
  · simp
  · intro n h1 h2
    simp [List.getElem?_eq_getElem h2]

theorem contents_length (B : Build) (s : State) : (contents B s).length = s.fifoFill.toNat := by
  simp [contents]

theorem contents_of_empty (B : Build) (s : State) (h : s.fifoFill = 0) : contents B s = [] := by
  simp [contents, h]

theorem stored_contents (B : Build) (s t : State) (buff : List Byte) (hwf : Wf B s)
    (hroom : (buff.length : Int) ≤ B.FIFO_SPIRAMSIZE - s.fifoFill) (h : Stored B s buff t) :
    contents B t = contents B s ++ buff := by
  obtain ⟨h1, h2, h3, h4, h5, h6, h7⟩ := hwf
  obtain ⟨f, hf⟩ := Int.eq_ofNat_of_zero_le h5
  have hshift : ∀ j : Int, (s.fifoWpos + j) % B.FIFO_SPIRAMSIZE =
      (s.fifoRpos + ((f : Int) + j)) % B.FIFO_SPIRAMSIZE := by
    intro j
    rw [h7, Int.emod_add_emod, hf, Int.add_assoc]
  unfold contents
  rw [h.fill, h.rpos, hf]
  have : ((f : Int) + (buff.length : Int)).toNat = f + buff.length := by omega
  rw [this, Int.toNat_ofNat, List.range_add, List.map_append, List.map_map]
  congr 1
  · apply List.map_congr_left
    intro i hi
    have hi2 := List.mem_range.1 hi
    apply h.frame
    intro j hj heq
    rw [hshift] at heq
    have := emod_inj_of_near _ _ _ heq (by omega) (by omega)
    omega
  · conv_rhs => rw [← range_map_getD buff]
    apply List.map_congr_left
    intro j hj
    have hj2 := List.mem_range.1 hj
    show t.fakespiram _ = _
    rw [← h.placed j hj2, hshift, Nat.cast_add]

theorem taken_contents (B : Build) (s t : State) (k : Nat) (hwf : Wf B s)
    (hk : (k : Int) ≤ s.fifoFill) (h : Taken B s k t) :
    contents B t = (contents B s).drop k := by
  obtain ⟨f, hf⟩ := Int.eq_ofNat_of_zero_le hwf.2.2.2.2.1
  unfold contents
  rw [h.fill, h.rpos, h.mem, hf]
  obtain ⟨j, rfl⟩ : ∃ j, f = k + j := ⟨f - k, by omega⟩
  have : ((k + j : Nat) : Int) - (k : Int) = (j : Int) := by omega
  rw [this, Int.toNat_ofNat, Int.toNat_ofNat, List.range_add, List.map_append,
    List.drop_left' (by simp), List.map_map]
  apply List.map_congr_left
  intro i _
  show s.fakespiram _ = s.fakespiram _
  rw [Int.emod_add_emod, Nat.cast_add, Int.add_assoc]

theorem out_eq_take_contents (B : Build) (s : State) (k : Nat) (hk : (k : Int) ≤ s.fifoFill) :
    (List.range k).map
      (fun (i : Nat) => s.fakespiram ((s.fifoRpos + (i : Int)) % B.FIFO_SPIRAMSIZE)) =
      (contents B s).take k := by
  unfold contents
  rw [← List.map_take, List.take_range]
  congr 2
  omega

theorem writeAll_ok (B : Build) (fuel : Nat) :
    ∀ (writes : List (List Byte)) (s : State), Wf B s →
      (writes.flatten.length : Int) ≤ B.FIFO_SPIRAMSIZE - s.fifoFill →
      writes.flatten.length ≤ fuel →
      ∃ t, writeAll B fuel s writes = some t ∧ Wf B t ∧
        contents B t = contents B s ++ writes.flatten ∧
        t.fifoFill = s.fifoFill + (writes.flatten.length : Int) := by
  intro writes
  induction writes with
  | nil =>
    intro s hwf _ _
    exact ⟨s, rfl, hwf, by simp, by simp⟩
  | cons w ws ih =>
    intro s hwf hroom hfuel
    simp only [List.flatten_cons, List.length_append, Nat.cast_add] at hroom hfuel
    obtain ⟨w1, _, w3, _⟩ := spiRamFifoWrite_ok B fuel s w hwf (by omega) (by omega)
    have hc := stored_contents B s _ w hwf (by omega) w3
    obtain ⟨t, t1, t2, t3, t4⟩ := ih (spiRamFifoWrite B fuel s w w.length).state w3.wf
      (by rw [w3.fill]; omega) (by omega)
    refine ⟨t, ?_, t2, ?_, ?_⟩
    · simp [writeAll, w1, t1]
    · rw [t3, hc]; simp
    · rw [t4, w3.fill]
      simp only [List.flatten_cons, List.length_append, Nat.cast_add]
      omega

theorem readAll_ok (B : Build) (fuel : Nat) :
    ∀ (reads : List Nat) (s : State), Wf B s → (reads.sum : Int) ≤ s.fifoFill →
      reads.sum ≤ fuel →
      ∃ t outs, readAll B fuel s reads = some (t, outs) ∧ Wf B t ∧
        outs.flatten = (contents B s).take reads.sum ∧
        outs.map List.length = reads ∧
        contents B t = (contents B s).drop reads.sum ∧
        t.fifoFill = s.fifoFill - (reads.sum : Int) := by
  intro reads
  induction reads with
  | nil =>
    intro s hwf _ _
    exact ⟨s, [], rfl, hwf, by simp, by simp, by simp, by simp⟩
  | cons k ks ih =>
    intro s hwf hfill hfuel
    simp only [List.sum_cons, Nat.cast_add] at hfill hfuel
    obtain ⟨r1, _, r3, r4, _⟩ := spiRamFifoRead_ok B fuel s k hwf (by omega) (by omega)
    rw [out_eq_take_contents B s k (by omega)] at r3
    have hc := taken_contents B s _ k hwf (by omega) r4
    obtain ⟨t, outs, t1, t2, t3, t4, t5, t6⟩ := ih (spiRamFifoRead B fuel s k).state r4.wf
      (by rw [r4.fill]; omega) (by omega)
    refine ⟨t, (spiRamFifoRead B fuel s k).out :: outs, ?_, t2, ?_, ?_, ?_, ?_⟩
    · simp [readAll, r1, t1]
    · rw [List.flatten_cons, t3, hc, r3, List.sum_cons, List.take_add]
    · have hlen : (contents B s).length = s.fifoFill.toNat := contents_length B s
      rw [List.map_cons, t4, r3, List.length_take]
      congr 1
      omega
    · rw [t5, hc, List.drop_drop, List.sum_cons]
    · rw [t6, r4.fill, List.sum_cons, Nat.cast_add]
      omega

theorem spiRamFifoWrite_stuck (B : Build) (buff : List Byte) (len : Int) (hlen : 0 < len) :
    ∀ (fuel : Nat) (s : State),
      B.FIFO_SPIRAMSIZE - s.fifoFill < chunkLen B len s.fifoWpos →
      (spiRamFifoWrite B fuel s buff len).status ≠ Status.returned ∧
      (spiRamFifoWrite B fuel s buff len).buffLen = len ∧
      (∀ e ∈ (spiRamFifoWrite B fuel s buff len).log,
        e = Event.overflow ∨ e = Event.takeCanWrite) ∧
      (spiRamFifoWrite B fuel s buff len).state.fifoRpos = s.fifoRpos ∧
      (spiRamFifoWrite B fuel s buff len).state.fifoWpos = s.fifoWpos ∧
      (spiRamFifoWrite B fuel s buff len).state.fifoFill = s.fifoFill ∧
      (spiRamFifoWrite B fuel s buff len).state.fakespiram = s.fakespiram ∧
      (spiRamFifoWrite B fuel s buff len).state.fifoUdrCnt = s.fifoUdrCnt := by
  intro fuel
  induction fuel with
  | zero =>
    intro s _
    simp [spiRamFifoWrite, hlen]
  | succ fuel ih =>
    intro s hshort
    by_cases hsem : s.semCanWrite = true
    · have hnext := ih { writeMiss s with semCanWrite := false } hshort
      simp only [spiRamFifoWrite, writeIter, hlen, hshort, if_true, writeMiss, hsem]
      simp only [writeMiss] at hnext
      refine ⟨hnext.1, hnext.2.1, ?_, hnext.2.2.2⟩
      intro e he
      simp only [Bool.false_eq_true, if_false, List.cons_append, List.nil_append,
        List.mem_cons] at he
      rcases he with h | h | h
      · exact Or.inl h
      · exact Or.inr h
      · exact hnext.2.2.1 e h
    · simp [spiRamFifoWrite, writeIter, hlen, hshort, writeMiss, hsem]

/-! ## Calls that cannot complete, and independence of the fuel -/

theorem spiRamFifoWrite_never (B : Build) :
    ∀ (fuel : Nat) (s : State) (buff : List Byte) (len : Int), Wf B s →
      B.FIFO_SPIRAMSIZE - s.fifoFill < len →
      (spiRamFifoWrite B fuel s buff len).status ≠ Status.returned := by
  intro fuel
  induction fuel with
  | zero =>
    intro s buff len hwf hlen
    have : 0 < len := by have := hwf.2.2.2.2.2.1; omega
    simp [spiRamFifoWrite, this]
  | succ fuel ih =>
    intro s buff len hwf hlen
    have hpos : 0 < len := by have := hwf.2.2.2.2.2.1; omega
    by_cases hshort : B.FIFO_SPIRAMSIZE - s.fifoFill < chunkLen B len s.fifoWpos
    · exact (spiRamFifoWrite_stuck B buff len hpos (fuel + 1) s hshort).1
    · obtain ⟨c1, c2, c3, c4⟩ := chunkLen_bounds B len s.fifoWpos hpos hwf.2.2.2.1
      rw [spiRamFifoWrite_step B fuel s buff len hpos hshort]
      apply ih _ _ _ (writeHit_wf B s buff _ hwf (by omega) c4 (by omega))
      show B.FIFO_SPIRAMSIZE - (s.fifoFill + chunkLen B len s.fifoWpos) < _
      omega

theorem spiRamFifoRead_stuck (B : Build) (len : Int) (hlen : 0 < len) :
    ∀ (fuel : Nat) (s : State), s.fifoFill < chunkLen B len s.fifoRpos →
      (spiRamFifoRead B fuel s len).status ≠ Status.returned ∧
      (spiRamFifoRead B fuel s len).out = [] := by
  intro fuel
  induction fuel with
  | zero =>
    intro s _
    simp [spiRamFifoRead, hlen]
  | succ fuel ih =>
    intro s hshort
    by_cases hlow : s.fifoFill < B.FIFO_LOWMARK
    · by_cases hsem : s.semCanRead = true
      · have hnext := ih { readMiss s with semCanRead := false } hshort
        simp only [readMiss] at hnext
        simpa [spiRamFifoRead, readIter, readAfterMiss, readMiss, hlen, hshort, hlow, hsem]
          using hnext
      · simp [spiRamFifoRead, readIter, readAfterMiss, readMiss, hlen, hshort, hlow, hsem]
    · have hnext := ih (readMiss s) hshort
      simp only [readMiss] at hnext
      simpa [spiRamFifoRead, readIter, readAfterMiss, readMiss, hlen, hshort, hlow]
        using hnext

theorem spiRamFifoRead_never (B : Build) :
    ∀ (fuel : Nat) (s : State) (len : Int), Wf B s → s.fifoFill < len →
      (spiRamFifoRead B fuel s len).status ≠ Status.returned := by
  intro fuel
  induction fuel with
  | zero =>
    intro s len hwf hlen
    have : 0 < len := by have := hwf.2.2.2.2.1; omega
    simp [spiRamFifoRead, this]
  | succ fuel ih =>
    intro s len hwf hlen
    have hpos : 0 < len := by have := hwf.2.2.2.2.1; omega
    by_cases hshort : s.fifoFill < chunkLen B len s.fifoRpos
    · exact (spiRamFifoRead_stuck B len hpos (fuel + 1) s hshort).1
    · obtain ⟨c1, c2, c3, c4⟩ := chunkLen_bounds B len s.fifoRpos hpos hwf.2.1
      rw [spiRamFifoRead_step B fuel s len hpos hshort]
      apply ih _ _ (readHit_wf B s _ hwf (by omega) c4 (by omega))
      show s.fifoFill - chunkLen B len s.fifoRpos < _
      omega

theorem chunkLen_le (B : Build) (len pos : Int) : chunkLen B len pos ≤ len := by
  unfold chunkLen SPIREADSIZE
  simp only []
  split_ifs <;> omega

theorem spiRamFifoWrite_mono (B : Build) :
    ∀ (fuel : Nat) (s : State) (buff : List Byte) (len : Int),
      (spiRamFifoWrite B fuel s buff len).status = Status.returned →
      spiRamFifoWrite B (fuel + 1) s buff len = spiRamFifoWrite B fuel s buff len := by
  intro fuel
  induction fuel with
  | zero =>
    intro s buff len h
    by_cases hlen : 0 < len
    · simp [spiRamFifoWrite, hlen] at h
    · simp [spiRamFifoWrite, hlen]
  | succ fuel ih =>
    intro s buff len h
    by_cases hlen : 0 < len
    · by_cases hsusp : (writeIter B s buff len).suspended = true
      · simp [spiRamFifoWrite, hlen, hsusp] at h
      · have h2 : (spiRamFifoWrite B fuel (writeIter B s buff len).state
            (writeIter B s buff len).buff (writeIter B s buff len).buffLen).status =
            Status.returned := by
          simpa [spiRamFifoWrite, hlen, hsusp] using h
        have h3 := ih _ _ _ h2
        rw [spiRamFifoWrite.eq_def B (fuel + 1 + 1)]
        simp only [hlen, hsusp, if_true, h3]
        rw [spiRamFifoWrite.eq_def B (fuel + 1)]
        simp only [hlen, hsusp, if_true]
    · simp [spiRamFifoWrite, hlen]

theorem spiRamFifoRead_mono (B : Build) :
    ∀ (fuel : Nat) (s : State) (len : Int),
      (spiRamFifoRead B fuel s len).status = Status.returned →
      spiRamFifoRead B (fuel + 1) s len = spiRamFifoRead B fuel s len := by
  intro fuel
  induction fuel with
  | zero =>
    intro s len h
    by_cases hlen : 0 < len
    · simp [spiRamFifoRead, hlen] at h
    · simp [spiRamFifoRead, hlen]
  | succ fuel ih =>
    intro s len h
    by_cases hlen : 0 < len
    · by_cases hsusp : (readIter B s len).suspended = true
      · simp [spiRamFifoRead, hlen, hsusp] at h
      · have h2 : (spiRamFifoRead B fuel (readIter B s len).state
            (readIter B s len).len).status = Status.returned := by
          simpa [spiRamFifoRead, hlen, hsusp] using h
        have h3 := ih _ _ h2
        rw [spiRamFifoRead.eq_def B (fuel + 1 + 1)]
        simp only [hlen, hsusp, if_true, h3]
        rw [spiRamFifoRead.eq_def B (fuel + 1)]
        simp only [hlen, hsusp, if_true]
    · simp [spiRamFifoRead, hlen]

theorem spiRamFifoWrite_mono_add (B : Build) (fuel : Nat) (s : State) (buff : List Byte)
    (len : Int) (h : (spiRamFifoWrite B fuel s buff len).status = Status.returned) :
    ∀ extra : Nat, spiRamFifoWrite B (fuel + extra) s buff len =
      spiRamFifoWrite B fuel s buff len := by
  intro extra
  induction extra with
  | zero => rfl
  | succ e ih =>
    rw [← Nat.add_assoc, spiRamFifoWrite_mono B (fuel + e) s buff len (by rw [ih]; exact h), ih]

theorem spiRamFifoRead_mono_add (B : Build) (fuel : Nat) (s : State) (len : Int)
    (h : (spiRamFifoRead B fuel s len).status = Status.returned) :
    ∀ extra : Nat, spiRamFifoRead B (fuel + extra) s len = spiRamFifoRead B fuel s len := by
  intro extra
  induction extra with
  | zero => rfl
  | succ e ih =>
    rw [← Nat.add_assoc, spiRamFifoRead_mono B (fuel + e) s len (by rw [ih]; exact h), ih]

theorem spiRamFifoWrite_congr (B : Build) :
    ∀ (fuel : Nat) (s t : State) (buff : List Byte) (len : Int),
      s.fifoWpos = t.fifoWpos → s.fifoFill = t.fifoFill →
      len ≤ B.FIFO_SPIRAMSIZE - s.fifoFill →
      (spiRamFifoWrite B fuel s buff len).status = (spiRamFifoWrite B fuel t buff len).status := by
  intro fuel
  induction fuel with
  | zero =>
    intro s t buff len _ _ _
    simp [spiRamFifoWrite]
  | succ fuel ih =>
    intro s t buff len hw hf hroom
    by_cases hlen : 0 < len
    · have hn := chunkLen_le B len s.fifoWpos
      rw [spiRamFifoWrite_step B fuel s buff len hlen (by omega),
        spiRamFifoWrite_step B fuel t buff len hlen (by rw [← hw, ← hf]; omega)]
      show (spiRamFifoWrite B fuel _ _ _).status = (spiRamFifoWrite B fuel _ _ _).status
      rw [← hw]
      apply ih
      · show (if s.fifoWpos + _ ≥ _ then 0 else s.fifoWpos + _) =
          (if t.fifoWpos + _ ≥ _ then 0 else t.fifoWpos + _)
        rw [hw]
      · show s.fifoFill + _ = t.fifoFill + _
        rw [hf]
      · show _ ≤ B.FIFO_SPIRAMSIZE - (s.fifoFill + chunkLen B len s.fifoWpos)
        omega
    · simp [spiRamFifoWrite, hlen]

theorem spiRamFifoRead_congr (B : Build) :
    ∀ (fuel : Nat) (s t : State) (len : Int),
      s.fifoRpos = t.fifoRpos → s.fifoFill = t.fifoFill → len ≤ s.fifoFill →
      (spiRamFifoRead B fuel s len).status = (spiRamFifoRead B fuel t len).status := by
  intro fuel
  induction fuel with
  | zero =>
    intro s t len _ _ _
    simp [spiRamFifoRead]
  | succ fuel ih =>
    intro s t len hr hf hdata
    by_cases hlen : 0 < len
    · have hn := chunkLen_le B len s.fifoRpos
      rw [spiRamFifoRead_step B fuel s len hlen (by omega),
        spiRamFifoRead_step B fuel t len hlen (by rw [← hr, ← hf]; omega)]
      show (spiRamFifoRead B fuel _ _).status = (spiRamFifoRead B fuel _ _).status
      rw [← hr]
      apply ih
      · show (if s.fifoRpos + _ ≥ _ then 0 else s.fifoRpos + _) =
          (if t.fifoRpos + _ ≥ _ then 0 else t.fifoRpos + _)
        rw [hr]
      · show s.fifoFill - _ = t.fifoFill - _
        rw [hf]
      · show _ ≤ s.fifoFill - chunkLen B len s.fifoRpos
        omega
    · simp [spiRamFifoRead, hlen]

theorem spiRamFifoWrite_returned (B : Build) (fuel : Nat) (s : State) (buff : List Byte)
    (hwf : Wf B s) (hroom : (buff.length : Int) ≤ B.FIFO_SPIRAMSIZE - s.fifoFill)
    (h : (spiRamFifoWrite B fuel s buff buff.length).status = Status.returned) :
    Stored B s buff (spiRamFifoWrite B fuel s buff buff.length).state := by
  have := (spiRamFifoWrite_ok B (fuel + buff.length) s buff hwf hroom (by omega)).2.2.1
  rwa [spiRamFifoWrite_mono_add B fuel s buff _ h] at this

theorem spiRamFifoRead_returned (B : Build) (fuel : Nat) (s : State) (k : Nat)
    (hwf : Wf B s) (hk : (k : Int) ≤ s.fifoFill)
    (h : (spiRamFifoRead B fuel s k).status = Status.returned) :
    (spiRamFifoRead B fuel s k).out = (contents B s).take k ∧
      Taken B s k (spiRamFifoRead B fuel s k).state := by
  have := spiRamFifoRead_ok B (fuel + k) s k hwf hk (by omega)
  rw [spiRamFifoRead_mono_add B fuel s _ h, out_eq_take_contents B s k hk] at this
  exact ⟨this.2.2.1, this.2.2.2.1⟩

theorem spiRamFifoRead_nonpos (B : Build) (fuel : Nat) (s : State) (len : Int) (h : len ≤ 0) :
    spiRamFifoRead B fuel s len = ⟨Status.returned, s, [], len, []⟩ := by
  have : ¬ 0 < len := by omega
  cases fuel <;> simp [spiRamFifoRead, this]

theorem wf_of_zero (B : Build) (hC : 0 < B.FIFO_SPIRAMSIZE) (s : State)
    (hr : s.fifoRpos = 0) (hw : s.fifoWpos = 0) (hf : s.fifoFill = 0) : Wf B s := by
  refine ⟨by omega, by omega, by omega, by omega, by omega, by omega, ?_⟩
  rw [hr, hw, hf]; simp

/-- Two well-formed empty instances with both offsets at zero answer a write
followed by a read alike, whatever their storage, counters and semaphores. -/
theorem writeThenRead_agree (B : Build) (hC : 0 < B.FIFO_SPIRAMSIZE) (a b : State)
    (ha : a.fifoRpos = 0 ∧ a.fifoWpos = 0 ∧ a.fifoFill = 0)
    (hb : b.fifoRpos = 0 ∧ b.fifoWpos = 0 ∧ b.fifoFill = 0)
    (buff : List Byte) (k : Int) (fuelW fuelR : Nat) :
    ((writeThenRead B fuelW fuelR a buff k).1.status = Status.returned ↔
      (writeThenRead B fuelW fuelR b buff k).1.status = Status.returned) ∧
    ((writeThenRead B fuelW fuelR a buff k).1.status = Status.returned →
      spiRamFifoFill (writeThenRead B fuelW fuelR a buff k).1.state =
        spiRamFifoFill (writeThenRead B fuelW fuelR b buff k).1.state ∧
      ((writeThenRead B fuelW fuelR a buff k).2.status = Status.returned ↔
        (writeThenRead B fuelW fuelR b buff k).2.status = Status.returned) ∧
      ((writeThenRead B fuelW fuelR a buff k).2.status = Status.returned →
        (writeThenRead B fuelW fuelR a buff k).2.out =
          (writeThenRead B fuelW fuelR b buff k).2.out ∧
        spiRamFifoFill (writeThenRead B fuelW fuelR a buff k).2.state =
          spiRamFifoFill (writeThenRead B fuelW fuelR b buff k).2.state)) := by
  have hwa := wf_of_zero B hC a ha.1 ha.2.1 ha.2.2
  have hwb := wf_of_zero B hC b hb.1 hb.2.1 hb.2.2
  simp only [writeThenRead, spiRamFifoFill]
  by_cases hlen : (buff.length : Int) ≤ B.FIFO_SPIRAMSIZE
  · have hst := spiRamFifoWrite_congr B fuelW a b buff buff.length
      (by rw [ha.2.1, hb.2.1]) (by rw [ha.2.2, hb.2.2]) (by rw [ha.2.2]; omega)
    refine ⟨by rw [hst], ?_⟩
    intro hret
    have sa := spiRamFifoWrite_returned B fuelW a buff hwa (by rw [ha.2.2]; omega) hret
    have sb := spiRamFifoWrite_returned B fuelW b buff hwb (by rw [hb.2.2]; omega)
      (by rw [← hst]; exact hret)
    have ca := stored_contents B a _ buff hwa (by rw [ha.2.2]; omega) sa
    have cb := stored_contents B b _ buff hwb (by rw [hb.2.2]; omega) sb
    rw [contents_of_empty B a ha.2.2] at ca
    rw [contents_of_empty B b hb.2.2] at cb
    have hfill : (spiRamFifoWrite B fuelW a buff buff.length).state.fifoFill =
        (spiRamFifoWrite B fuelW b buff buff.length).state.fifoFill := by
      rw [sa.fill, sb.fill, ha.2.2, hb.2.2]
    have hrpos : (spiRamFifoWrite B fuelW a buff buff.length).state.fifoRpos =
        (spiRamFifoWrite B fuelW b buff buff.length).state.fifoRpos := by
      rw [sa.rpos, sb.rpos, ha.1, hb.1]
    refine ⟨hfill, ?_⟩
    by_cases hk : k ≤ (spiRamFifoWrite B fuelW a buff buff.length).state.fifoFill
    · have hrs := spiRamFifoRead_congr B fuelR _ _ k hrpos hfill hk
      refine ⟨by rw [hrs], ?_⟩
      intro hr
      by_cases hk0 : k ≤ 0
      · rw [spiRamFifoRead_nonpos B fuelR _ k hk0, spiRamFifoRead_nonpos B fuelR _ k hk0]
        exact ⟨rfl, hfill⟩
      · obtain ⟨n, rfl⟩ := Int.eq_ofNat_of_zero_le (by omega : 0 ≤ k)
        obtain ⟨oa, ta⟩ := spiRamFifoRead_returned B fuelR _ n sa.wf hk hr
        obtain ⟨ob, tb⟩ := spiRamFifoRead_returned B fuelR _ n sb.wf (by rw [← hfill]; exact hk)
          (by rw [← hrs]; exact hr)
        refine ⟨by rw [oa, ob, ca, cb], ?_⟩
        rw [ta.fill, tb.fill, hfill]
    · have na := spiRamFifoRead_never B fuelR _ k sa.wf (by omega)
      have nb := spiRamFifoRead_never B fuelR _ k sb.wf (by rw [← hfill]; omega)
      exact ⟨⟨fun h => absurd h na, fun h => absurd h nb⟩, fun h => absurd h na⟩
  · have na := spiRamFifoWrite_never B fuelW a buff buff.length hwa (by rw [ha.2.2]; omega)
    have nb := spiRamFifoWrite_never B fuelW b buff buff.length hwb (by rw [hb.2.2]; omega)
    exact ⟨⟨fun h => absurd h na, fun h => absurd h nb⟩, fun h => absurd h na⟩

/-! ## Reachable states and single passes through the loop bodies -/

theorem reachable_wf (B : Build) (hC : 0 < B.FIFO_SPIRAMSIZE) (s : State)
    (h : Reachable B s) : Wf B s := by
  induction h with
  | init mem => exact wf_of_zero B hC _ rfl rfl rfl
  | reset s _ _ =>
    apply wf_of_zero B hC <;>
    · unfold spiRamFifoReset
      by_cases h : s.semCanRead = true <;> simp [h]
  | read s len pos _ hlen hp0 hp1 hor ih =>
    obtain ⟨c1, c2, c3, c4⟩ := chunkLen_bounds B len pos hlen hp1
    unfold readLocked
    split_ifs with hshort
    · exact ih
    · apply readHit_wf B s _ ih (by omega) _ (by omega)
      rcases hor with h | h <;> rw [h] <;> omega
  | write s buff len pos _ hlen hp0 hp1 hor ih =>
    obtain ⟨c1, c2, c3, c4⟩ := chunkLen_bounds B len pos hlen hp1
    unfold writeLocked
    split_ifs with hshort
    · exact ih
    · apply writeHit_wf B s buff _ ih (by omega) _ (by omega)
      rcases hor with h | h <;> rw [h] <;> omega
  | sems s a b _ ih => exact ih

theorem readIter_wf (B : Build) (s : State) (len : Int) (hwf : Wf B s) (hlen : 0 < len) :
    Wf B (readIter B s len).state := by
  obtain ⟨c1, c2, c3, c4⟩ := chunkLen_bounds B len s.fifoRpos hlen hwf.2.1
  unfold readIter
  simp only []
  split_ifs with h1 h2 h3
  · exact hwf
  · exact hwf
  · exact hwf
  · exact readHit_wf B s _ hwf (by omega) c4 (by omega)

theorem writeIter_wf (B : Build) (s : State) (buff : List Byte) (len : Int) (hwf : Wf B s)
    (hlen : 0 < len) : Wf B (writeIter B s buff len).state := by
  obtain ⟨c1, c2, c3, c4⟩ := chunkLen_bounds B len s.fifoWpos hlen hwf.2.2.2.1
  unfold writeIter
  simp only []
  split_ifs with h1 h2
  · exact hwf
  · exact hwf
  · exact writeHit_wf B s buff _ hwf (by omega) c4 (by omega)

theorem readIter_access (B : Build) (s : State) (len : Int) (hwf : Wf B s) (hlen : 0 < len)
    (pos n : Int) (h : Event.spiRamRead pos n ∈ (readIter B s len).events) :
    0 ≤ pos ∧ 1 ≤ n ∧ n ≤ 64 ∧ pos + n ≤ B.FIFO_SPIRAMSIZE := by
  obtain ⟨c1, c2, c3, c4⟩ := chunkLen_bounds B len s.fifoRpos hlen hwf.2.1
  unfold SPIREADSIZE at c3
  have h0 := hwf.1
  unfold readIter at h
  simp only [] at h
  split_ifs at h with h1 h2 h3
  · simp at h
  · simp at h
  · simp at h
  · simp only [List.mem_singleton, Event.spiRamRead.injEq] at h
    obtain ⟨rfl, rfl⟩ := h
    exact ⟨h0, c1, c3, by omega⟩

theorem writeIter_access (B : Build) (s : State) (buff : List Byte) (len : Int) (hwf : Wf B s)
    (hlen : 0 < len) (pos n : Int)
    (h : Event.spiRamWrite pos n ∈ (writeIter B s buff len).events) :
    0 ≤ pos ∧ 1 ≤ n ∧ n ≤ 64 ∧ pos + n ≤ B.FIFO_SPIRAMSIZE := by
  obtain ⟨c1, c2, c3, c4⟩ := chunkLen_bounds B len s.fifoWpos hlen hwf.2.2.2.1
  unfold SPIREADSIZE at c3
  have h0 := hwf.2.2.1
  unfold writeIter at h
  simp only [] at h
  split_ifs at h with h1 h2
  · simp at h
  · simp at h
  · simp only [List.mem_singleton, Event.spiRamWrite.injEq] at h
    obtain ⟨rfl, rfl⟩ := h
    exact ⟨h0, c1, c3, by omega⟩

theorem spiRamFifoRead_access (B : Build) :
    ∀ (fuel : Nat) (s : State) (len : Int), Wf B s →
      ∀ pos n, Event.spiRamRead pos n ∈ (spiRamFifoRead B fuel s len).log →
        0 ≤ pos ∧ 1 ≤ n ∧ n ≤ 64 ∧ pos + n ≤ B.FIFO_SPIRAMSIZE := by
  intro fuel
  induction fuel with
  | zero =>
    intro s len _ pos n h
    simp [spiRamFifoRead] at h
  | succ fuel ih =>
    intro s len hwf pos n h
    by_cases hlen : 0 < len
    · by_cases hsusp : (readIter B s len).suspended = true
      · simp only [spiRamFifoRead, hlen, hsusp, if_true] at h
        exact readIter_access B s len hwf hlen pos n h
      · simp only [spiRamFifoRead, hlen, hsusp, if_true, Bool.false_eq_true, if_false,
          List.mem_append] at h
        rcases h with h | h
        · exact readIter_access B s len hwf hlen pos n h
        · exact ih _ _ (readIter_wf B s len hwf hlen) pos n h
    · simp [spiRamFifoRead, hlen] at h

theorem spiRamFifoWrite_access (B : Build) :
    ∀ (fuel : Nat) (s : State) (buff : List Byte) (len : Int), Wf B s →
      ∀ pos n, Event.spiRamWrite pos n ∈ (spiRamFifoWrite B fuel s buff len).log →
        0 ≤ pos ∧ 1 ≤ n ∧ n ≤ 64 ∧ pos + n ≤ B.FIFO_SPIRAMSIZE := by
  intro fuel
  induction fuel with
  | zero =>
    intro s buff len _ pos n h
    simp [spiRamFifoWrite] at h
  | succ fuel ih =>
    intro s buff len hwf pos n h
    by_cases hlen : 0 < len
    · by_cases hsusp : (writeIter B s buff len).suspended = true
      · simp only [spiRamFifoWrite, hlen, hsusp, if_true] at h
        exact writeIter_access B s buff len hwf hlen pos n h
      · simp only [spiRamFifoWrite, hlen, hsusp, if_true, Bool.false_eq_true, if_false,
          List.mem_append] at h
        rcases h with h | h
        · exact writeIter_access B s buff len hwf hlen pos n h
        · exact ih _ _ _ (writeIter_wf B s buff len hwf hlen) pos n h
    · simp [spiRamFifoWrite, hlen] at h

theorem reachable_readIter (B : Build) (hC : 0 < B.FIFO_SPIRAMSIZE) (s : State) (len : Int)
    (h : Reachable B s) (hlen : 0 < len) : Reachable B (readIter B s len).state := by
  have hwf := reachable_wf B hC s h
  have base := Reachable.read s len s.fifoRpos h hlen hwf.1 hwf.2.1 (Or.inl rfl)
  unfold readLocked at base
  unfold readIter
  simp only []
  split_ifs with h1 h2 h3
  · rw [if_pos h1] at base
    exact Reachable.sems _ false (readMiss s).semCanWrite base
  · rw [if_pos h1] at base
    exact base
  · rw [if_pos h1] at base
    exact base
  · rw [if_neg h1] at base
    exact base

theorem reachable_writeIter (B : Build) (hC : 0 < B.FIFO_SPIRAMSIZE) (s : State)
    (buff : List Byte) (len : Int) (h : Reachable B s) (hlen : 0 < len) :
    Reachable B (writeIter B s buff len).state := by
  have hwf := reachable_wf B hC s h
  have base := Reachable.write s buff len s.fifoWpos h hlen hwf.2.2.1 hwf.2.2.2.1 (Or.inl rfl)
  unfold writeLocked at base
  unfold writeIter
  simp only []
  split_ifs with h1 h2
  · rw [if_pos h1] at base
    exact Reachable.sems _ (writeMiss s).semCanRead false base
  · rw [if_pos h1] at base
    exact base
  · rw [if_neg h1] at base
    exact base

theorem reachable_spiRamFifoRead (B : Build) (hC : 0 < B.FIFO_SPIRAMSIZE) :
    ∀ (fuel : Nat) (s : State) (len : Int), Reachable B s →
      Reachable B (spiRamFifoRead B fuel s len).state := by
  intro fuel
  induction fuel with
  | zero =>
    intro s len h
    exact h
  | succ fuel ih =>
    intro s len h
    by_cases hlen : 0 < len
    · have hit := reachable_readIter B hC s len h hlen
      by_cases hsusp : (readIter B s len).suspended = true
      · simpa [spiRamFifoRead, hlen, hsusp] using hit
      · simpa [spiRamFifoRead, hlen, hsusp] using ih _ _ hit
    · simpa [spiRamFifoRead, hlen] using h

theorem reachable_spiRamFifoWrite (B : Build) (hC : 0 < B.FIFO_SPIRAMSIZE) :
    ∀ (fuel : Nat) (s : State) (buff : List Byte) (len : Int), Reachable B s →
      Reachable B (spiRamFifoWrite B fuel s buff len).state := by
  intro fuel
  induction fuel with
  | zero =>
    intro s buff len h
    exact h
  | succ fuel ih =>
    intro s buff len h
    by_cases hlen : 0 < len
    · have hit := reachable_writeIter B hC s buff len h hlen
      by_cases hsusp : (writeIter B s buff len).suspended = true
      · simpa [spiRamFifoWrite, hlen, hsusp] using hit
      · simpa [spiRamFifoWrite, hlen, hsusp] using ih _ _ _ hit
    · simpa [spiRamFifoWrite, hlen] using h

/-! ## Agreement up to the counters -/

theorem readIter_same (B : Build) (s t : State) (len : Int) (h : SameButCounters s t) :
    (readIter B s len).chunk = (readIter B t len).chunk ∧
    (readIter B s len).len = (readIter B t len).len ∧
    (readIter B s len).events = (readIter B t len).events ∧
    (readIter B s len).suspended = (readIter B t len).suspended ∧
    SameButCounters (readIter B s len).state (readIter B t len).state := by
  obtain ⟨h1, h2, h3, h4, h5, h6⟩ := h
  unfold readIter readAfterMiss readMiss readHit SameButCounters
  simp only [h1, h2, h3, h4, h5, h6]
  split_ifs <;> simp

theorem writeIter_same (B : Build) (s t : State) (buff : List Byte) (len : Int)
    (h : SameButCounters s t) :
    (writeIter B s buff len).buff = (writeIter B t buff len).buff ∧
    (writeIter B s buff len).buffLen = (writeIter B t buff len).buffLen ∧
    (writeIter B s buff len).events = (writeIter B t buff len).events ∧
    (writeIter B s buff len).suspended = (writeIter B t buff len).suspended ∧
    SameButCounters (writeIter B s buff len).state (writeIter B t buff len).state := by
  obtain ⟨h1, h2, h3, h4, h5, h6⟩ := h
  unfold writeIter writeMiss writeHit SameButCounters
  simp only [h1, h2, h3, h4, h5, h6]
  split_ifs <;> simp

theorem spiRamFifoRead_succ_blocked (B : Build) (fuel : Nat) (s : State) (len : Int)
    (hlen : 0 < len) (hsusp : (readIter B s len).suspended = true) :
    spiRamFifoRead B (fuel + 1) s len =
      ⟨Status.blocked, (readIter B s len).state, (readIter B s len).chunk,
        (readIter B s len).len, (readIter B s len).events⟩ := by
  simp [spiRamFifoRead, hlen, hsusp]

theorem spiRamFifoRead_succ_next (B : Build) (fuel : Nat) (s : State) (len : Int)
    (hlen : 0 < len) (hsusp : ¬ (readIter B s len).suspended = true) :
    spiRamFifoRead B (fuel + 1) s len =
      ⟨(spiRamFifoRead B fuel (readIter B s len).state (readIter B s len).len).status,
        (spiRamFifoRead B fuel (readIter B s len).state (readIter B s len).len).state,
        (readIter B s len).chunk ++
          (spiRamFifoRead B fuel (readIter B s len).state (readIter B s len).len).out,
        (spiRamFifoRead B fuel (readIter B s len).state (readIter B s len).len).len,
        (readIter B s len).events ++
          (spiRamFifoRead B fuel (readIter B s len).state (readIter B s len).len).log⟩ := by
  simp [spiRamFifoRead, hlen, hsusp]

theorem spiRamFifoRead_succ_done (B : Build) (fuel : Nat) (s : State) (len : Int)
    (hlen : ¬ 0 < len) :
    spiRamFifoRead B (fuel + 1) s len = ⟨Status.returned, s, [], len, []⟩ := by
  simp [spiRamFifoRead, hlen]

theorem spiRamFifoWrite_succ_blocked (B : Build) (fuel : Nat) (s : State) (buff : List Byte)
    (len : Int) (hlen : 0 < len) (hsusp : (writeIter B s buff len).suspended = true) :
    spiRamFifoWrite B (fuel + 1) s buff len =
      ⟨Status.blocked, (writeIter B s buff len).state, (writeIter B s buff len).buffLen,
        (writeIter B s buff len).events⟩ := by
  simp [spiRamFifoWrite, hlen, hsusp]

theorem spiRamFifoWrite_succ_next (B : Build) (fuel : Nat) (s : State) (buff : List Byte)
    (len : Int) (hlen : 0 < len) (hsusp : ¬ (writeIter B s buff len).suspended = true) :
    spiRamFifoWrite B (fuel + 1) s buff len =
      ⟨(spiRamFifoWrite B fuel (writeIter B s buff len).state (writeIter B s buff len).buff
          (writeIter B s buff len).buffLen).status,
        (spiRamFifoWrite B fuel (writeIter B s buff len).state (writeIter B s buff len).buff
          (writeIter B s buff len).buffLen).state,
        (spiRamFifoWrite B fuel (writeIter B s buff len).state (writeIter B s buff len).buff
          (writeIter B s buff len).buffLen).buffLen,
        (writeIter B s buff len).events ++
          (spiRamFifoWrite B fuel (writeIter B s buff len).state (writeIter B s buff len).buff
            (writeIter B s buff len).buffLen).log⟩ := by
  simp [spiRamFifoWrite, hlen, hsusp]

theorem spiRamFifoWrite_succ_done (B : Build) (fuel : Nat) (s : State) (buff : List Byte)
    (len : Int) (hlen : ¬ 0 < len) :
    spiRamFifoWrite B (fuel + 1) s buff len = ⟨Status.returned, s, len, []⟩ := by
  simp [spiRamFifoWrite, hlen]

theorem spiRamFifoRead_same (B : Build) :
    ∀ (fuel : Nat) (s t : State) (len : Int), SameButCounters s t →
      (spiRamFifoRead B fuel s len).status = (spiRamFifoRead B fuel t len).status ∧
      (spiRamFifoRead B fuel s len).out = (spiRamFifoRead B fuel t len).out ∧
      (spiRamFifoRead B fuel s len).len = (spiRamFifoRead B fuel t len).len ∧
      (spiRamFifoRead B fuel s len).log = (spiRamFifoRead B fuel t len).log ∧
      SameButCounters (spiRamFifoRead B fuel s len).state
        (spiRamFifoRead B fuel t len).state := by
  intro fuel
  induction fuel with
  | zero =>
    intro s t len h
    exact ⟨rfl, rfl, rfl, rfl, h⟩
  | succ fuel ih =>
    intro s t len h
    obtain ⟨a1, a2, a3, a4, a5⟩ := readIter_same B s t len h
    by_cases hlen : 0 < len
    · by_cases hsusp : (readIter B t len).suspended = true
      · have hsusp2 : (readIter B s len).suspended = true := by rw [a4]; exact hsusp
        rw [spiRamFifoRead_succ_blocked B fuel s len hlen hsusp2,
          spiRamFifoRead_succ_blocked B fuel t len hlen hsusp]
        exact ⟨rfl, a1, a2, a3, a5⟩
      · have hsusp2 : ¬ (readIter B s len).suspended = true := by rw [a4]; exact hsusp
        obtain ⟨b1, b2, b3, b4, b5⟩ := ih _ _ (readIter B s len).len a5
        rw [spiRamFifoRead_succ_next B fuel s len hlen hsusp2,
          spiRamFifoRead_succ_next B fuel t len hlen hsusp, ← a1, ← a2, ← a3]
        exact ⟨b1, by rw [b2], b3, by rw [b4], b5⟩
    · rw [spiRamFifoRead_succ_done B fuel s len hlen, spiRamFifoRead_succ_done B fuel t len hlen]
      exact ⟨rfl, rfl, rfl, rfl, h⟩

theorem spiRamFifoWrite_same (B : Build) :
    ∀ (fuel : Nat) (s t : State) (buff : List Byte) (len : Int), SameButCounters s t →
      (spiRamFifoWrite B fuel s buff len).status = (spiRamFifoWrite B fuel t buff len).status ∧
      (spiRamFifoWrite B fuel s buff len).buffLen =
        (spiRamFifoWrite B fuel t buff len).buffLen ∧
      (spiRamFifoWrite B fuel s buff len).log = (spiRamFifoWrite B fuel t buff len).log ∧
      SameButCounters (spiRamFifoWrite B fuel s buff len).state
        (spiRamFifoWrite B fuel t buff len).state := by
  intro fuel
  induction fuel with
  | zero =>
    intro s t buff len h
    exact ⟨rfl, rfl, rfl, h⟩
  | succ fuel ih =>
    intro s t buff len h
    obtain ⟨a1, a2, a3, a4, a5⟩ := writeIter_same B s t buff len h
    by_cases hlen : 0 < len
    · by_cases hsusp : (writeIter B t buff len).suspended = true
      · have hsusp2 : (writeIter B s buff len).suspended = true := by rw [a4]; exact hsusp
        rw [spiRamFifoWrite_succ_blocked B fuel s buff len hlen hsusp2,
          spiRamFifoWrite_succ_blocked B fuel t buff len hlen hsusp]
        exact ⟨rfl, a2, a3, a5⟩
      · have hsusp2 : ¬ (writeIter B s buff len).suspended = true := by rw [a4]; exact hsusp
        obtain ⟨b1, b2, b3, b4⟩ := ih _ _ (writeIter B s buff len).buff
          (writeIter B s buff len).buffLen a5
        rw [spiRamFifoWrite_succ_next B fuel s buff len hlen hsusp2,
          spiRamFifoWrite_succ_next B fuel t buff len hlen hsusp, ← a1, ← a2, ← a3]
        exact ⟨b1, b2, by rw [b3], b4⟩
    · rw [spiRamFifoWrite_succ_done B fuel s buff len hlen,
        spiRamFifoWrite_succ_done B fuel t buff len hlen]
      exact ⟨rfl, rfl, rfl, h⟩

/-! ## The counters -/

theorem wrapLong_eq (x : Int) (h0 : LONG_MIN ≤ x) (h1 : x ≤ LONG_MAX) : wrapLong x = x := by
  unfold wrapLong
  unfold LONG_MIN at h0
  unfold LONG_MAX at h1
  omega

theorem underflows_append (a b : List Event) :
    underflows (a ++ b) = underflows a + underflows b := by
  induction a with
  | nil => simp [underflows]
  | cons e es ih =>
    cases e <;> simp [underflows, ih]
    omega

theorem overflows_append (a b : List Event) :
    overflows (a ++ b) = overflows a + overflows b := by
  induction a with
  | nil => simp [overflows]
  | cons e es ih =>
    cases e <;> simp [overflows, ih]
    omega

theorem readIter_counters (B : Build) (s : State) (len : Int) :
    (readIter B s len).state.fifoOvfCnt = s.fifoOvfCnt ∧
    (s.fifoFill < chunkLen B len s.fifoRpos →
      (readIter B s len).state.fifoUdrCnt = wrapLong (s.fifoUdrCnt + 1) ∧
      underflows (readIter B s len).events = 1) ∧
    (¬ s.fifoFill < chunkLen B len s.fifoRpos →
      (readIter B s len).state.fifoUdrCnt = s.fifoUdrCnt ∧
      underflows (readIter B s len).events = 0) := by
  refine ⟨?_, ?_, ?_⟩
  · unfold readIter
    simp only []
    split_ifs <;> simp [readMiss, readHit]
  · intro hshort
    unfold readIter
    simp only [hshort, if_true]
    split_ifs <;> simp [readMiss, underflows]
  · intro hok
    simp [readIter, hok, readHit, underflows]

theorem writeIter_counters (B : Build) (s : State) (buff : List Byte) (len : Int) :
    (writeIter B s buff len).state.fifoUdrCnt = s.fifoUdrCnt ∧
    (B.FIFO_SPIRAMSIZE - s.fifoFill < chunkLen B len s.fifoWpos →
      (writeIter B s buff len).state.fifoOvfCnt = wrapLong (s.fifoOvfCnt + 1) ∧
      overflows (writeIter B s buff len).events = 1) ∧
    (¬ B.FIFO_SPIRAMSIZE - s.fifoFill < chunkLen B len s.fifoWpos →
      (writeIter B s buff len).state.fifoOvfCnt = s.fifoOvfCnt ∧
      overflows (writeIter B s buff len).events = 0) := by
  refine ⟨?_, ?_, ?_⟩
  · unfold writeIter
    simp only []
    split_ifs <;> simp [writeMiss, writeHit]
  · intro hshort
    unfold writeIter
    simp only [hshort, if_true]
    split_ifs <;> simp [writeMiss, overflows]
  · intro hok
    simp [writeIter, hok, writeHit, overflows]

theorem spiRamFifoRead_ovf (B : Build) :
    ∀ (fuel : Nat) (s : State) (len : Int),
      (spiRamFifoRead B fuel s len).state.fifoOvfCnt = s.fifoOvfCnt := by
  intro fuel
  induction fuel with
  | zero => intro s len; rfl
  | succ fuel ih =>
    intro s len
    have hit := (readIter_counters B s len).1
    by_cases hlen : 0 < len
    · by_cases hsusp : (readIter B s len).suspended = true
      · rw [spiRamFifoRead_succ_blocked B fuel s len hlen hsusp]
        exact hit
      · rw [spiRamFifoRead_succ_next B fuel s len hlen hsusp]
        show (spiRamFifoRead B fuel _ _).state.fifoOvfCnt = _
        rw [ih, hit]
    · rw [spiRamFifoRead_succ_done B fuel s len hlen]

theorem spiRamFifoWrite_udr (B : Build) :
    ∀ (fuel : Nat) (s : State) (buff : List Byte) (len : Int),
      (spiRamFifoWrite B fuel s buff len).state.fifoUdrCnt = s.fifoUdrCnt := by
  intro fuel
  induction fuel with
  | zero => intro s buff len; rfl
  | succ fuel ih =>
    intro s buff len
    have hit := (writeIter_counters B s buff len).1
    by_cases hlen : 0 < len
    · by_cases hsusp : (writeIter B s buff len).suspended = true
      · rw [spiRamFifoWrite_succ_blocked B fuel s buff len hlen hsusp]
        exact hit
      · rw [spiRamFifoWrite_succ_next B fuel s buff len hlen hsusp]
        show (spiRamFifoWrite B fuel _ _ _).state.fifoUdrCnt = _
        rw [ih, hit]
    · rw [spiRamFifoWrite_succ_done B fuel s buff len hlen]

theorem spiRamFifoRead_udr (B : Build) :
    ∀ (fuel : Nat) (s : State) (len : Int), LONG_MIN ≤ s.fifoUdrCnt →
      s.fifoUdrCnt + (underflows (spiRamFifoRead B fuel s len).log : Int) ≤ LONG_MAX →
      (spiRamFifoRead B fuel s len).state.fifoUdrCnt =
        s.fifoUdrCnt + (underflows (spiRamFifoRead B fuel s len).log : Int) := by
  intro fuel
  induction fuel with
  | zero =>
    intro s len _ _
    simp [spiRamFifoRead, underflows]
  | succ fuel ih =>
    intro s len hmin hmax
    obtain ⟨_, hmiss, hhit⟩ := readIter_counters B s len
    by_cases hlen : 0 < len
    · have hstep : LONG_MIN ≤ (readIter B s len).state.fifoUdrCnt ∧
          ((readIter B s len).state.fifoUdrCnt =
            s.fifoUdrCnt + (underflows (readIter B s len).events : Int) ∨
            LONG_MAX < s.fifoUdrCnt + (underflows (readIter B s len).events : Int)) := by
        by_cases hshort : s.fifoFill < chunkLen B len s.fifoRpos
        · obtain ⟨h1, h2⟩ := hmiss hshort
          rw [h1, h2]
          by_cases hroom : s.fifoUdrCnt + 1 ≤ LONG_MAX
          · rw [wrapLong_eq _ (by omega) hroom]
            exact ⟨by omega, Or.inl (by simp)⟩
          · refine ⟨?_, Or.inr (by simp; omega)⟩
            unfold wrapLong LONG_MIN
            omega
        · obtain ⟨h1, h2⟩ := hhit hshort
          rw [h1, h2]
          exact ⟨hmin, Or.inl (by simp)⟩
      by_cases hsusp : (readIter B s len).suspended = true
      · rw [spiRamFifoRead_succ_blocked B fuel s len hlen hsusp] at hmax ⊢
        rcases hstep.2 with h | h
        · exact h
        · exact absurd hmax (by simpa using not_le.2 h)
      · rw [spiRamFifoRead_succ_next B fuel s len hlen hsusp] at hmax ⊢
        simp only [underflows_append, Nat.cast_add] at hmax ⊢
        rcases hstep.2 with h | h
        · rw [ih _ _ hstep.1 (by rw [h]; omega), h]
          omega
        · omega
    · rw [spiRamFifoRead_succ_done B fuel s len hlen]
      simp [underflows]

theorem spiRamFifoWrite_ovf (B : Build) :
    ∀ (fuel : Nat) (s : State) (buff : List Byte) (len : Int), LONG_MIN ≤ s.fifoOvfCnt →
      s.fifoOvfCnt + (overflows (spiRamFifoWrite B fuel s buff len).log : Int) ≤ LONG_MAX →
      (spiRamFifoWrite B fuel s buff len).state.fifoOvfCnt =
        s.fifoOvfCnt + (overflows (spiRamFifoWrite B fuel s buff len).log : Int) := by
  intro fuel
  induction fuel with
  | zero =>
    intro s buff len _ _
    simp [spiRamFifoWrite, overflows]
  | succ fuel ih =>
    intro s buff len hmin hmax
    obtain ⟨_, hmiss, hhit⟩ := writeIter_counters B s buff len
    by_cases hlen : 0 < len
    · have hstep : LONG_MIN ≤ (writeIter B s buff len).state.fifoOvfCnt ∧
          ((writeIter B s buff len).state.fifoOvfCnt =
            s.fifoOvfCnt + (overflows (writeIter B s buff len).events : Int) ∨
            LONG_MAX < s.fifoOvfCnt + (overflows (writeIter B s buff len).events : Int)) := by
        by_cases hshort : B.FIFO_SPIRAMSIZE - s.fifoFill < chunkLen B len s.fifoWpos
        · obtain ⟨h1, h2⟩ := hmiss hshort
          rw [h1, h2]
          by_cases hroom : s.fifoOvfCnt + 1 ≤ LONG_MAX
          · rw [wrapLong_eq _ (by omega) hroom]
            exact ⟨by omega, Or.inl (by simp)⟩
          · refine ⟨?_, Or.inr (by simp; omega)⟩
            unfold wrapLong LONG_MIN
            omega
        · obtain ⟨h1, h2⟩ := hhit hshort
          rw [h1, h2]
          exact ⟨hmin, Or.inl (by simp)⟩
      by_cases hsusp : (writeIter B s buff len).suspended = true
      · rw [spiRamFifoWrite_succ_blocked B fuel s buff len hlen hsusp] at hmax ⊢
        rcases hstep.2 with h | h
        · exact h
        · exact absurd hmax (by simpa using not_le.2 h)
      · rw [spiRamFifoWrite_succ_next B fuel s buff len hlen hsusp] at hmax ⊢
        simp only [overflows_append, Nat.cast_add] at hmax ⊢
        rcases hstep.2 with h | h
        · rw [ih _ _ _ hstep.1 (by rw [h]; omega), h]
          omega
        · omega
    · rw [spiRamFifoWrite_succ_done B fuel s buff len hlen]
      simp [overflows]

theorem reachable_starved :
    ∀ n : Nat, (n : Int) ≤ LONG_MAX → Reachable compiled (starved n) := by
  intro n
  induction n with
  | zero =>
    intro _
    exact Reachable.init (fun _ => 0)
  | succ n ih =>
    intro hn
    have hprev := ih (by push_cast at hn; omega)
    have hstep := Reachable.read (starved n) 1 0 hprev (by decide) (by decide) (by decide)
      (Or.inl rfl)
    have hlen : chunkLen compiled 1 0 = 1 := by decide
    have hw : wrapLong ((n : Int) + 1) = (n : Int) + 1 := by
      apply wrapLong_eq
      · unfold LONG_MIN; omega
      · push_cast at hn; exact hn
    have heq : readLocked compiled (starved n) (chunkLen compiled 1 0) =
        starved ((n + 1 : Nat) : Int) := by
      rw [hlen]
      simp [readLocked, readMiss, starved, freshState, hw]
    rw [heq] at hstep
    exact hstep

/-! ## The invariant along whole calls, and the chunk size -/

theorem spiRamFifoRead_wf (B : Build) :
    ∀ (fuel : Nat) (s : State) (len : Int), Wf B s →
      Wf B (spiRamFifoRead B fuel s len).state := by
  intro fuel
  induction fuel with
  | zero =>
    intro s len h
    exact h
  | succ fuel ih =>
    intro s len h
    by_cases hlen : 0 < len
    · have hit := readIter_wf B s len h hlen
      by_cases hsusp : (readIter B s len).suspended = true
      · rw [spiRamFifoRead_succ_blocked B fuel s len hlen hsusp]
        exact hit
      · rw [spiRamFifoRead_succ_next B fuel s len hlen hsusp]
        exact ih _ _ hit
    · rw [spiRamFifoRead_succ_done B fuel s len hlen]
      exact h

theorem spiRamFifoWrite_wf (B : Build) :
    ∀ (fuel : Nat) (s : State) (buff : List Byte) (len : Int), Wf B s →
      Wf B (spiRamFifoWrite B fuel s buff len).state := by
  intro fuel
  induction fuel with
  | zero =>
    intro s buff len h
    exact h
  | succ fuel ih =>
    intro s buff len h
    by_cases hlen : 0 < len
    · have hit := writeIter_wf B s buff len h hlen
      by_cases hsusp : (writeIter B s buff len).suspended = true
      · rw [spiRamFifoWrite_succ_blocked B fuel s buff len hlen hsusp]
        exact hit
      · rw [spiRamFifoWrite_succ_next B fuel s buff len hlen hsusp]
        exact ih _ _ _ hit
    · rw [spiRamFifoWrite_succ_done B fuel s buff len hlen]
      exact h

theorem spiRamFifoReset_wf (B : Build) (hC : 0 < B.FIFO_SPIRAMSIZE) (s : State) :
    Wf B (spiRamFifoReset s).state := by
  apply wf_of_zero B hC <;>
  · unfold spiRamFifoReset
    by_cases h : s.semCanRead = true <;> simp [h]

theorem readLocked_wf (B : Build) (s : State) (len pos : Int) (hwf : Wf B s) (hlen : 0 < len)
    (hp0 : 0 ≤ pos) (hp1 : pos < B.FIFO_SPIRAMSIZE) (hor : s.fifoRpos = pos ∨ s.fifoRpos = 0) :
    Wf B (readLocked B s (chunkLen B len pos)) := by
  obtain ⟨c1, c2, c3, c4⟩ := chunkLen_bounds B len pos hlen hp1
  unfold readLocked
  split_ifs with hshort
  · exact hwf
  · apply readHit_wf B s _ hwf (by omega) _ (by omega)
    rcases hor with h | h <;> rw [h] <;> omega

theorem writeLocked_wf (B : Build) (s : State) (buff : List Byte) (len pos : Int)
    (hwf : Wf B s) (hlen : 0 < len) (hp0 : 0 ≤ pos) (hp1 : pos < B.FIFO_SPIRAMSIZE)
    (hor : s.fifoWpos = pos ∨ s.fifoWpos = 0) :
    Wf B (writeLocked B s buff (chunkLen B len pos)) := by
  obtain ⟨c1, c2, c3, c4⟩ := chunkLen_bounds B len pos hlen hp1
  unfold writeLocked
  split_ifs with hshort
  · exact hwf
  · apply writeHit_wf B s buff _ hwf (by omega) _ (by omega)
    rcases hor with h | h <;> rw [h] <;> omega

theorem chunkLen_le_size (B : Build) (len pos : Int) : chunkLen B len pos ≤ 64 := by
  unfold chunkLen SPIREADSIZE
  simp only []
  split_ifs <;> omega

theorem readIter_compiled_events (s : State) (len : Int) :
    Event.retry ∉ (readIter compiled s len).events := by
  have hn := chunkLen_le_size compiled len s.fifoRpos
  by_cases h1 : s.fifoFill < chunkLen compiled len s.fifoRpos
  · have hlow : s.fifoFill < compiled.FIFO_LOWMARK := by
      show s.fifoFill < 112 * 1024
      omega
    by_cases hsem : s.semCanRead = true <;>
      simp [readIter, readAfterMiss, readMiss, h1, hlow, hsem]
  · simp [readIter, h1]

theorem spiRamFifoRead_compiled_log :
    ∀ (fuel : Nat) (s : State) (len : Int),
      Event.retry ∉ (spiRamFifoRead compiled fuel s len).log := by
  intro fuel
  induction fuel with
  | zero =>
    intro s len
    simp [spiRamFifoRead]
  | succ fuel ih =>
    intro s len
    have hit := readIter_compiled_events s len
    by_cases hlen : 0 < len
    · by_cases hsusp : (readIter compiled s len).suspended = true
      · rw [spiRamFifoRead_succ_blocked compiled fuel s len hlen hsusp]
        exact hit
      · rw [spiRamFifoRead_succ_next compiled fuel s len hlen hsusp]
        intro hmem
        rcases List.mem_append.1 hmem with h | h
        · exact hit h
        · exact ih _ _ h
    · rw [spiRamFifoRead_succ_done compiled fuel s len hlen]
      simp

/-! ## Frames of the two sides, and the mutex -/

theorem readIter_frame (B : Build) (s : State) (len : Int) :
    (readIter B s len).state.fifoWpos = s.fifoWpos ∧
    (readIter B s len).state.fakespiram = s.fakespiram := by
  unfold readIter
  simp only []
  split_ifs <;> simp [readMiss, readHit]

theorem writeIter_frame (B : Build) (s : State) (buff : List Byte) (len : Int) :
    (writeIter B s buff len).state.fifoRpos = s.fifoRpos ∧
    ∀ a : Int, ¬ (s.fifoWpos ≤ a ∧ a < s.fifoWpos + chunkLen B len s.fifoWpos) →
      (writeIter B s buff len).state.fakespiram a = s.fakespiram a := by
  unfold writeIter
  simp only []
  split_ifs
  · simp [writeMiss]
  · simp [writeMiss]
  · refine ⟨rfl, ?_⟩
    intro a ha
    show spiRamWrite s.fakespiram s.fifoWpos buff _ a = _
    unfold spiRamWrite
    rw [if_neg ha]

theorem writePasses_rpos (B : Build) :
    ∀ (ps : List (List Byte × Int)) (s : State), (writePasses B s ps).fifoRpos = s.fifoRpos := by
  intro ps
  induction ps with
  | nil => intro s; rfl
  | cons p ps ih =>
    intro s
    show (writePasses B (writeIter B s p.1 p.2).state ps).fifoRpos = _
    rw [ih, (writeIter_frame B s p.1 p.2).1]

theorem readPasses_wpos (B : Build) :
    ∀ (ls : List Int) (s : State), (readPasses B s ls).fifoWpos = s.fifoWpos := by
  intro ls
  induction ls with
  | nil => intro s; rfl
  | cons len ls ih =>
    intro s
    show (readPasses B (readIter B s len).state ls).fifoWpos = _
    rw [ih, (readIter_frame B s len).1]

theorem attempt_held (B : Build) (g : Guarded) (hmux : g.mux = false) (op : Op) :
    attempt B g op = g := by
  cases op <;> simp [attempt, readIterGuarded, writeIterGuarded, resetGuarded, hmux]

theorem attempts_held (B : Build) (g : Guarded) (hmux : g.mux = false) :
    ∀ ops : List Op, attempts B g ops = g := by
  intro ops
  induction ops with
  | nil => rfl
  | cons op ops ih =>
    show attempts B (attempt B g op) ops = g
    rw [attempt_held B g hmux op]
    exact ih

/-! ## The claims -/

/-- C1 (FIFO ordering): from an empty FIFO, with read and write offset equal and
inside the store, any sequence of writes whose total length is at most the
capacity, followed by any sequence of reads whose lengths sum to that total,
all return, and the bytes returned by the reads, concatenated, are the bytes
passed to the writes, concatenated in write order. -/
theorem fifo_ordering (B : Build) (s : State) (writes : List (List Byte)) (reads : List Nat)
    (fuel : Nat) (hr0 : 0 ≤ s.fifoRpos) (hr1 : s.fifoRpos < B.FIFO_SPIRAMSIZE)
    (hrw : s.fifoRpos = s.fifoWpos) (hempty : s.fifoFill = 0)
    (htotal : (writes.flatten.length : Int) ≤ B.FIFO_SPIRAMSIZE)
    (hsum : reads.sum = writes.flatten.length) (hfuel : writes.flatten.length ≤ fuel) :
    ∃ s1 s2 outs, writeAll B fuel s writes = some s1 ∧
      readAll B fuel s1 reads = some (s2, outs) ∧
      outs.flatten = writes.flatten := by
  have hwf : Wf B s := by
    refine ⟨hr0, hr1, by omega, by omega, by omega, by omega, ?_⟩
    rw [hempty, Int.add_zero, Int.emod_eq_of_lt hr0 hr1, hrw]
  obtain ⟨s1, a1, a2, a3, a4⟩ := writeAll_ok B fuel writes s hwf (by omega) hfuel
  obtain ⟨s2, outs, b1, _, b3, _⟩ := readAll_ok B fuel reads s1 a2 (by omega) (by omega)
  refine ⟨s1, s2, outs, a1, b1, ?_⟩
  rw [b3, a3, contents_of_empty B s hempty, List.nil_append, hsum, List.take_length]

/-- Witness for C1 in the build of capacity 100: two writes of 30 and 40
bytes starting at offset 80 (so the data wraps), then reads of 50 and 20. -/
theorem fifo_ordering_witness :
    (0 ≤ (emptyAt 80).fifoRpos ∧ (emptyAt 80).fifoRpos < tiny.FIFO_SPIRAMSIZE ∧
      (emptyAt 80).fifoRpos = (emptyAt 80).fifoWpos ∧ (emptyAt 80).fifoFill = 0 ∧
      (([ramp 30, ramp 40].flatten.length : Nat) : Int) ≤ tiny.FIFO_SPIRAMSIZE ∧
      [50, 20].sum = [ramp 30, ramp 40].flatten.length ∧
      [ramp 30, ramp 40].flatten.length ≤ 70) ∧
    ∃ s1 s2 outs, writeAll tiny 70 (emptyAt 80) [ramp 30, ramp 40] = some s1 ∧
      readAll tiny 70 s1 [50, 20] = some (s2, outs) ∧
      outs.flatten = [ramp 30, ramp 40].flatten :=
  ⟨by decide, fifo_ordering tiny (emptyAt 80) [ramp 30, ramp 40] [50, 20] 70
    (by decide) (by decide) (by decide) (by decide) (by decide) (by decide) (by decide)⟩

/-- C2 (fill accounting): in a well-formed state, a write of `buff` that fits
the free space returns without an overflow shortfall and raises the fill by
exactly its length; a following read of `k` bytes, `0 ≤ k ≤ fill`, returns
without an underflow shortfall, delivers the `k` oldest buffered bytes and
lowers the fill by exactly `k`. -/
theorem fill_accounting (B : Build) (s : State) (buff : List Byte) (k : Int)
    (fuelW fuelR : Nat) (hwf : Wf B s)
    (hfree : (buff.length : Int) ≤ spiRamFifoFree B s) (hfuelW : buff.length ≤ fuelW)
    (hk0 : 0 ≤ k)
    (hk : k ≤ spiRamFifoFill (spiRamFifoWrite B fuelW s buff buff.length).state)
    (hfuelR : k.toNat ≤ fuelR) :
    (spiRamFifoWrite B fuelW s buff buff.length).status = Status.returned ∧
    Event.overflow ∉ (spiRamFifoWrite B fuelW s buff buff.length).log ∧
    spiRamFifoFill (spiRamFifoWrite B fuelW s buff buff.length).state =
      spiRamFifoFill s + (buff.length : Int) ∧
    (spiRamFifoRead B fuelR (spiRamFifoWrite B fuelW s buff buff.length).state k).status =
      Status.returned ∧
    Event.underflow ∉
      (spiRamFifoRead B fuelR (spiRamFifoWrite B fuelW s buff buff.length).state k).log ∧
    (spiRamFifoRead B fuelR (spiRamFifoWrite B fuelW s buff buff.length).state k).out =
      (contents B s ++ buff).take k.toNat ∧
    spiRamFifoFill
        (spiRamFifoRead B fuelR (spiRamFifoWrite B fuelW s buff buff.length).state k).state =
      spiRamFifoFill (spiRamFifoWrite B fuelW s buff buff.length).state - k := by
  obtain ⟨w1, _, w3, w4⟩ := spiRamFifoWrite_ok B fuelW s buff hwf hfree hfuelW
  have hc := stored_contents B s _ buff hwf hfree w3
  obtain ⟨n, rfl⟩ := Int.eq_ofNat_of_zero_le hk0
  obtain ⟨r1, _, r3, r4, r5⟩ := spiRamFifoRead_ok B fuelR _ n w3.wf hk (by simpa using hfuelR)
  rw [out_eq_take_contents B _ n hk, hc] at r3
  refine ⟨w1, ?_, w3.fill, r1, ?_, ?_, r4.fill⟩
  · intro h
    obtain ⟨_, _, h2⟩ := w4 _ h
    cases h2
  · intro h
    obtain ⟨_, _, h2⟩ := r5 _ h
    cases h2
  · simpa using r3

/-- Witness for C2, scenario A: capacity 1024, fresh instance, write 100 bytes
(fill 100), read 50 (the first 50 written bytes, fill 50). -/
theorem fill_accounting_witness :
    (Wf kilo (freshState (fun _ => 0)) ∧
      (((ramp 100).length : Nat) : Int) ≤ spiRamFifoFree kilo (freshState (fun _ => 0)) ∧
      (ramp 100).length ≤ 100 ∧ (0 : Int) ≤ 50 ∧
      (50 : Int) ≤ spiRamFifoFill
        (spiRamFifoWrite kilo 100 (freshState (fun _ => 0)) (ramp 100) (ramp 100).length).state ∧
      (50 : Int).toNat ≤ 50) ∧
    spiRamFifoFill
      (spiRamFifoWrite kilo 100 (freshState (fun _ => 0)) (ramp 100) (ramp 100).length).state =
      100 ∧
    (spiRamFifoRead kilo 50
      (spiRamFifoWrite kilo 100 (freshState (fun _ => 0)) (ramp 100) (ramp 100).length).state
      50).out = ramp 50 ∧
    spiRamFifoFill (spiRamFifoRead kilo 50
      (spiRamFifoWrite kilo 100 (freshState (fun _ => 0)) (ramp 100) (ramp 100).length).state
      50).state = 50 := by
  have h := fill_accounting kilo (freshState (fun _ => 0)) (ramp 100) 50 100 50
    (by decide) (by decide) (by decide) (by decide) (by decide) (by decide)
  refine ⟨by decide, ?_, ?_, ?_⟩
  · rw [h.2.2.1]; decide
  · rw [h.2.2.2.2.2.1]; decide
  · rw [h.2.2.2.2.2.2, h.2.2.1]; decide

/-- C3 (wraparound placement): in a well-formed state with write offset `w`, a
write of `buff` that fits the free space returns and leaves byte `i` of `buff`
at backing-store offset `(w + i) mod capacity`, whether or not `w + len`
exceeds the capacity; when the FIFO was empty before, reading `len` bytes back
returns exactly `buff`. -/
theorem wraparound_placement (B : Build) (s : State) (buff : List Byte) (fuel : Nat)
    (hwf : Wf B s) (hfree : (buff.length : Int) ≤ spiRamFifoFree B s)
    (hfuel : buff.length ≤ fuel) :
    (spiRamFifoWrite B fuel s buff buff.length).status = Status.returned ∧
    (∀ (i : Nat) (h : i < buff.length),
      (spiRamFifoWrite B fuel s buff buff.length).state.fakespiram
        ((s.fifoWpos + (i : Int)) % B.FIFO_SPIRAMSIZE) = buff[i]) ∧
    (s.fifoFill = 0 → ∀ fuelR : Nat, buff.length ≤ fuelR →
      (spiRamFifoRead B fuelR (spiRamFifoWrite B fuel s buff buff.length).state
        buff.length).status = Status.returned ∧
      (spiRamFifoRead B fuelR (spiRamFifoWrite B fuel s buff buff.length).state
        buff.length).out = buff) := by
  obtain ⟨w1, _, w3, _⟩ := spiRamFifoWrite_ok B fuel s buff hwf hfree hfuel
  refine ⟨w1, ?_, ?_⟩
  · intro i h
    rw [w3.placed i h, List.getD_eq_getElem buff 0 h]
  · intro hempty fuelR hfuelR
    have hc := stored_contents B s _ buff hwf hfree w3
    have hfill : ((buff.length : Nat) : Int) ≤
        (spiRamFifoWrite B fuel s buff buff.length).state.fifoFill := by
      rw [w3.fill]; have := hwf.2.2.2.2.1; omega
    obtain ⟨r1, _, r3, _⟩ := spiRamFifoRead_ok B fuelR _ buff.length w3.wf hfill hfuelR
    refine ⟨r1, ?_⟩
    rw [r3, out_eq_take_contents B _ _ hfill, hc, contents_of_empty B s hempty]
    simp

/-- Witness for C3, scenario C: capacity 100, `r = w = 80`, `f = 0`, write 50
bytes: bytes 0..19 are at offsets 80..99, bytes 20..49 at offsets 0..29, and
reading 50 bytes returns them in order. -/
theorem wraparound_placement_witness :
    (Wf tiny (emptyAt 80) ∧
      (((ramp 50).length : Nat) : Int) ≤ spiRamFifoFree tiny (emptyAt 80) ∧
      (ramp 50).length ≤ 50) ∧
    (∀ i : Nat, i < 20 →
      (spiRamFifoWrite tiny 50 (emptyAt 80) (ramp 50) (ramp 50).length).state.fakespiram
        (80 + (i : Int)) = (ramp 50).getD i 0) ∧
    (∀ i : Nat, i < 30 →
      (spiRamFifoWrite tiny 50 (emptyAt 80) (ramp 50) (ramp 50).length).state.fakespiram
        (i : Int) = (ramp 50).getD (20 + i) 0) ∧
    (spiRamFifoRead tiny 50
      (spiRamFifoWrite tiny 50 (emptyAt 80) (ramp 50) (ramp 50).length).state
      (ramp 50).length).out = ramp 50 := by
  have h := wraparound_placement tiny (emptyAt 80) (ramp 50) 50
    (by decide) (by decide) (by decide)
  refine ⟨by decide, ?_, ?_, (h.2.2 rfl 50 (by decide)).2⟩
  · intro i hi
    have hi2 : i < (ramp 50).length := by
      have : (ramp 50).length = 50 := by decide
      omega
    have := h.2.1 i hi2
    rw [List.getD_eq_getElem _ 0 hi2, ← this]
    congr 1
    show (80 + (i : Int)) = (80 + (i : Int)) % 100
    omega
  · intro i hi
    have hi2 : 20 + i < (ramp 50).length := by
      have : (ramp 50).length = 50 := by decide
      omega
    have := h.2.1 (20 + i) hi2
    rw [List.getD_eq_getElem _ 0 hi2, ← this]
    congr 1
    show (i : Int) = (80 + ((20 + i : Nat) : Int)) % 100
    omega

/-- C4 (backpressure at full): in a well-formed full state a one-byte write
takes the shortfall branch, whose critical section changes nothing but the
overflow counter (which it raises by 1, wrapping at `LONG_MAX`), and, however
long it runs, never returns, issues no
`spiRamWrite` and leaves offsets, fill, storage and the underflow counter as
they were; once a read of `k ≥ 1` bytes has returned, the one-byte write
returns without a shortfall, and reading the remaining `capacity - k + 1`
bytes returns the previously buffered unread bytes in order, then the new
byte. -/
theorem backpressure_at_full (B : Build) (s : State) (b : Byte) (k : Nat)
    (fuel0 fuel1 fuel2 fuel3 : Nat) (hwf : Wf B s) (hfull : s.fifoFill = B.FIFO_SPIRAMSIZE)
    (hk1 : 1 ≤ k) (hkC : (k : Int) ≤ B.FIFO_SPIRAMSIZE) (hfuel1 : k ≤ fuel1)
    (hfuel2 : 1 ≤ fuel2) (hfuel3 : (B.FIFO_SPIRAMSIZE - k + 1).toNat ≤ fuel3) :
    (B.FIFO_SPIRAMSIZE - s.fifoFill < chunkLen B 1 s.fifoWpos ∧
      writeLocked B s [b] (chunkLen B 1 s.fifoWpos) =
        { s with fifoOvfCnt := wrapLong (s.fifoOvfCnt + 1) } ∧
      (LONG_MIN ≤ s.fifoOvfCnt → s.fifoOvfCnt < LONG_MAX →
        writeLocked B s [b] (chunkLen B 1 s.fifoWpos) =
          { s with fifoOvfCnt := s.fifoOvfCnt + 1 }) ∧
      (spiRamFifoWrite B fuel0 s [b] 1).status ≠ Status.returned ∧
      (∀ pos n, Event.spiRamWrite pos n ∉ (spiRamFifoWrite B fuel0 s [b] 1).log) ∧
      (spiRamFifoWrite B fuel0 s [b] 1).state.fifoRpos = s.fifoRpos ∧
      (spiRamFifoWrite B fuel0 s [b] 1).state.fifoWpos = s.fifoWpos ∧
      (spiRamFifoWrite B fuel0 s [b] 1).state.fifoFill = s.fifoFill ∧
      (spiRamFifoWrite B fuel0 s [b] 1).state.fakespiram = s.fakespiram ∧
      (spiRamFifoWrite B fuel0 s [b] 1).state.fifoUdrCnt = s.fifoUdrCnt) ∧
    (spiRamFifoRead B fuel1 s k).status = Status.returned ∧
    (spiRamFifoRead B fuel1 s k).out = (contents B s).take k ∧
    (spiRamFifoWrite B fuel2 (spiRamFifoRead B fuel1 s k).state [b] 1).status =
      Status.returned ∧
    Event.overflow ∉ (spiRamFifoWrite B fuel2 (spiRamFifoRead B fuel1 s k).state [b] 1).log ∧
    (spiRamFifoRead B fuel3 (spiRamFifoWrite B fuel2 (spiRamFifoRead B fuel1 s k).state [b] 1).state
      (B.FIFO_SPIRAMSIZE - k + 1)).status = Status.returned ∧
    (spiRamFifoRead B fuel3 (spiRamFifoWrite B fuel2 (spiRamFifoRead B fuel1 s k).state [b] 1).state
      (B.FIFO_SPIRAMSIZE - k + 1)).out = (contents B s).drop k ++ [b] := by
  have hshort : B.FIFO_SPIRAMSIZE - s.fifoFill < chunkLen B 1 s.fifoWpos := by
    have := (chunkLen_bounds B 1 s.fifoWpos (by omega) hwf.2.2.2.1).1
    omega
  obtain ⟨a1, _, a3, a4, a5, a6, a7, a8⟩ :=
    spiRamFifoWrite_stuck B [b] 1 (by omega) fuel0 s hshort
  obtain ⟨r1, _, r3, r4, _⟩ := spiRamFifoRead_ok B fuel1 s k hwf (by omega) hfuel1
  rw [out_eq_take_contents B s k (by omega)] at r3
  have hc1 := taken_contents B s _ k hwf (by omega) r4
  have hroom : ((([b] : List Byte).length : Nat) : Int) ≤
      B.FIFO_SPIRAMSIZE - (spiRamFifoRead B fuel1 s k).state.fifoFill := by
    rw [r4.fill, hfull]; simp; omega
  obtain ⟨w1, _, w3, w4⟩ := spiRamFifoWrite_ok B fuel2 _ [b] r4.wf hroom (by simpa using hfuel2)
  have hc2 := stored_contents B _ _ [b] r4.wf hroom w3
  simp only [List.length_singleton, Nat.cast_one] at w1 w3 w4 hc2
  obtain ⟨m, hm⟩ := Int.eq_ofNat_of_zero_le (by omega : 0 ≤ B.FIFO_SPIRAMSIZE - k + 1)
  have hmfill : (m : Int) ≤
      (spiRamFifoWrite B fuel2 (spiRamFifoRead B fuel1 s k).state [b] 1).state.fifoFill := by
    rw [w3.fill, r4.fill, hfull, ← hm]; simp
  rw [hm] at hfuel3 ⊢
  obtain ⟨q1, _, q3, _⟩ := spiRamFifoRead_ok B fuel3 _ m w3.wf hmfill (by simpa using hfuel3)
  rw [out_eq_take_contents B _ m hmfill, hc2, hc1] at q3
  refine ⟨⟨hshort, ?_, ?_, a1, ?_, a4, a5, a6, a7, a8⟩, r1, r3, w1, ?_, q1, ?_⟩
  · simp [writeLocked, hshort, writeMiss]
  · intro hmin hmax
    simp [writeLocked, hshort, writeMiss, wrapLong_eq _ (by omega : LONG_MIN ≤ s.fifoOvfCnt + 1)
      (by omega : s.fifoOvfCnt + 1 ≤ LONG_MAX)]
  · intro pos n h
    rcases a3 _ h with h2 | h2 <;> cases h2
  · intro h
    obtain ⟨_, _, h2⟩ := w4 _ h
    cases h2
  · rw [q3]
    apply List.take_of_length_le
    have := contents_length B s
    simp only [List.length_append, List.length_drop, List.length_singleton, this, hfull]
    omega

/-- Witness for C4, scenario B at capacity 100: the buffer is full with the
bytes 0..99; a write of the byte 255 stays stuck; after a read of 1 byte it
returns, and reading 100 bytes gives 1..99 followed by 255. -/
theorem backpressure_at_full_witness :
    (Wf tiny fullAt80 ∧ fullAt80.fifoFill = tiny.FIFO_SPIRAMSIZE ∧ 1 ≤ 1 ∧
      ((1 : Nat) : Int) ≤ tiny.FIFO_SPIRAMSIZE ∧ 1 ≤ 1 ∧ 1 ≤ 1 ∧
      (tiny.FIFO_SPIRAMSIZE - (1 : Nat) + 1).toNat ≤ 100) ∧
    (spiRamFifoWrite tiny 5 fullAt80 [255] 1).status ≠ Status.returned ∧
    (spiRamFifoRead tiny 1 fullAt80 (1 : Nat)).out = [0] ∧
    (spiRamFifoRead tiny 100
      (spiRamFifoWrite tiny 1 (spiRamFifoRead tiny 1 fullAt80 (1 : Nat)).state [255] 1).state
      (tiny.FIFO_SPIRAMSIZE - (1 : Nat) + 1)).out = (ramp 100).drop 1 ++ [255] := by
  have h := backpressure_at_full tiny fullAt80 255 1 5 1 1 100
    (by decide) (by decide) (by decide) (by decide) (by decide) (by decide) (by decide)
  refine ⟨by decide, h.1.2.2.2.1, ?_, ?_⟩
  · rw [h.2.2.1]; decide
  · rw [h.2.2.2.2.2.2]; decide

/-- C5 (reset clears state): `spiRamFifoReset` returns exactly when
`semCanRead` is available, and whatever the prior state its fill is then 0 and
read offset, write offset, fill and both counters are those of a freshly
initialised instance; a write followed by a read returns on the reset
instance exactly when it returns on a fresh one, with the same fill after
each call and the same bytes; and a write of at most the capacity followed by
a read of at most the written length does return, with the first bytes
written. -/
theorem reset_clears_state (B : Build) (hC : 0 < B.FIFO_SPIRAMSIZE) (s : State)
    (mem0 : Int → Byte) (buff : List Byte) (k : Int) (fuelW fuelR : Nat) :
    ((spiRamFifoReset s).status = Status.returned ↔ s.semCanRead = true) ∧
    spiRamFifoFill (spiRamFifoReset s).state = 0 ∧
    (spiRamFifoReset s).state.fifoRpos = (freshState mem0).fifoRpos ∧
    (spiRamFifoReset s).state.fifoWpos = (freshState mem0).fifoWpos ∧
    (spiRamFifoReset s).state.fifoFill = (freshState mem0).fifoFill ∧
    spiRamGetOverrunCt (spiRamFifoReset s).state = spiRamGetOverrunCt (freshState mem0) ∧
    spiRamGetUnderrunCt (spiRamFifoReset s).state = spiRamGetUnderrunCt (freshState mem0) ∧
    ((writeThenRead B fuelW fuelR (spiRamFifoReset s).state buff k).1.status = Status.returned ↔
      (writeThenRead B fuelW fuelR (freshState mem0) buff k).1.status = Status.returned) ∧
    ((writeThenRead B fuelW fuelR (spiRamFifoReset s).state buff k).1.status = Status.returned →
      spiRamFifoFill (writeThenRead B fuelW fuelR (spiRamFifoReset s).state buff k).1.state =
        spiRamFifoFill (writeThenRead B fuelW fuelR (freshState mem0) buff k).1.state ∧
      ((writeThenRead B fuelW fuelR (spiRamFifoReset s).state buff k).2.status =
          Status.returned ↔
        (writeThenRead B fuelW fuelR (freshState mem0) buff k).2.status = Status.returned) ∧
      ((writeThenRead B fuelW fuelR (spiRamFifoReset s).state buff k).2.status =
          Status.returned →
        (writeThenRead B fuelW fuelR (spiRamFifoReset s).state buff k).2.out =
          (writeThenRead B fuelW fuelR (freshState mem0) buff k).2.out ∧
        spiRamFifoFill (writeThenRead B fuelW fuelR (spiRamFifoReset s).state buff k).2.state =
          spiRamFifoFill (writeThenRead B fuelW fuelR (freshState mem0) buff k).2.state)) ∧
    ((buff.length : Int) ≤ B.FIFO_SPIRAMSIZE → 0 ≤ k → k ≤ (buff.length : Int) →
      buff.length ≤ fuelW → k.toNat ≤ fuelR →
      (writeThenRead B fuelW fuelR (spiRamFifoReset s).state buff k).1.status = Status.returned ∧
      (writeThenRead B fuelW fuelR (spiRamFifoReset s).state buff k).2.status = Status.returned ∧
      (writeThenRead B fuelW fuelR (spiRamFifoReset s).state buff k).2.out =
        buff.take k.toNat) := by
  have hz : (spiRamFifoReset s).state.fifoRpos = 0 ∧ (spiRamFifoReset s).state.fifoWpos = 0 ∧
      (spiRamFifoReset s).state.fifoFill = 0 ∧ (spiRamFifoReset s).state.fifoOvfCnt = 0 ∧
      (spiRamFifoReset s).state.fifoUdrCnt = 0 := by
    unfold spiRamFifoReset
    by_cases h : s.semCanRead = true <;> simp [h]
  have hagree := writeThenRead_agree B hC (spiRamFifoReset s).state (freshState mem0)
    ⟨hz.1, hz.2.1, hz.2.2.1⟩ ⟨rfl, rfl, rfl⟩ buff k fuelW fuelR
  refine ⟨?_, hz.2.2.1, hz.1, hz.2.1, hz.2.2.1, hz.2.2.2.1, hz.2.2.2.2, hagree.1, hagree.2, ?_⟩
  · unfold spiRamFifoReset
    by_cases h : s.semCanRead = true <;> simp [h]
  · intro hlen hk0 hk hfuelW hfuelR
    have hwf := wf_of_zero B hC (spiRamFifoReset s).state hz.1 hz.2.1 hz.2.2.1
    have hroom : (buff.length : Int) ≤ B.FIFO_SPIRAMSIZE - (spiRamFifoReset s).state.fifoFill := by
      rw [hz.2.2.1]; omega
    obtain ⟨w1, _, w3, _⟩ := spiRamFifoWrite_ok B fuelW _ buff hwf hroom hfuelW
    have hc := stored_contents B _ _ buff hwf hroom w3
    rw [contents_of_empty B _ hz.2.2.1, List.nil_append] at hc
    obtain ⟨n, rfl⟩ := Int.eq_ofNat_of_zero_le hk0
    have hkf : (n : Int) ≤
        (spiRamFifoWrite B fuelW (spiRamFifoReset s).state buff buff.length).state.fifoFill := by
      rw [w3.fill, hz.2.2.1]; omega
    obtain ⟨r1, _, r3, _⟩ := spiRamFifoRead_ok B fuelR _ n w3.wf hkf (by simpa using hfuelR)
    rw [out_eq_take_contents B _ n hkf, hc] at r3
    exact ⟨w1, r1, by simpa [writeThenRead] using r3⟩

/-- Witness for C5 at capacity 100: the prior state is full from offset 80;
after the reset the fill is 0, and writing 30 bytes then reading 20 gives the
same bytes as on a fresh instance over different storage. -/
theorem reset_clears_state_witness :
    0 < tiny.FIFO_SPIRAMSIZE ∧
    (spiRamFifoReset fullAt80).status = Status.returned ∧
    spiRamFifoFill (spiRamFifoReset fullAt80).state = 0 ∧
    (writeThenRead tiny 30 20 (spiRamFifoReset fullAt80).state (ramp 30) 20).2.out =
      (writeThenRead tiny 30 20 (freshState (fun _ => 7)) (ramp 30) 20).2.out ∧
    (writeThenRead tiny 30 20 (spiRamFifoReset fullAt80).state (ramp 30) 20).2.out =
      (ramp 30).take 20 := by
  have h := reset_clears_state tiny (by decide) fullAt80 (fun _ => 7) (ramp 30) 20 30 20
  have hdone := h.2.2.2.2.2.2.2.2.2 (by decide) (by decide) (by decide) (by decide) (by decide)
  exact ⟨by decide, h.1.2 (by decide), h.2.1,
    (h.2.2.2.2.2.2.2.2.1 hdone.1).2.2 hdone.2.1 |>.1, hdone.2.2⟩

/-- C6 (init failure), evaluated at a failed allocation: `spiRamFifoInit`
returns 1 although `pvPortMallocCaps` returned `NULL` and no usable instance
exists; with a successful allocation it returns 1 with offsets, fill and
counters 0. -/
theorem init_ignores_allocation_failure :
    (spiRamFifoInit none).1 = 1 ∧ (spiRamFifoInit none).2.isNone = true ∧
    ∀ mem : Int → Byte, (spiRamFifoInit (some mem)).1 = 1 ∧
      ∃ s, (spiRamFifoInit (some mem)).2 = some s ∧ s.fifoRpos = 0 ∧ s.fifoWpos = 0 ∧
        s.fifoFill = 0 ∧ s.fifoOvfCnt = 0 ∧ s.fifoUdrCnt = 0 :=
  ⟨rfl, rfl, fun mem => ⟨rfl, freshState mem, rfl, rfl, rfl, rfl, rfl, rfl⟩⟩

/-- C7 (conservation): in every reachable state of an instance with positive
capacity, `spiRamFifoFill() + spiRamFifoFree() = spiRamFifoLen()`, and both
fill and free lie between 0 and the capacity. -/
theorem conservation (B : Build) (hC : 0 < B.FIFO_SPIRAMSIZE) (s : State)
    (h : Reachable B s) :
    spiRamFifoFill s + spiRamFifoFree B s = spiRamFifoLen B ∧
    0 ≤ spiRamFifoFill s ∧ spiRamFifoFill s ≤ spiRamFifoLen B ∧
    0 ≤ spiRamFifoFree B s ∧ spiRamFifoFree B s ≤ spiRamFifoLen B := by
  have hwf := reachable_wf B hC s h
  have h5 := hwf.2.2.2.2.1
  have h6 := hwf.2.2.2.2.2.1
  unfold spiRamFifoFree spiRamFifoLen spiRamFifoFill
  omega

/-- Witness for C7 in the compiled build: the state after initialisation, a
write of 100 bytes and a read of 70 bytes is reachable and has fill 30 and
free 204770. -/
theorem conservation_witness :
    0 < compiled.FIFO_SPIRAMSIZE ∧
    Reachable compiled (spiRamFifoRead compiled 2
      (spiRamFifoWrite compiled 2 (freshState (fun _ => 0)) (ramp 100) 100).state 70).state ∧
    spiRamFifoFill (spiRamFifoRead compiled 2
      (spiRamFifoWrite compiled 2 (freshState (fun _ => 0)) (ramp 100) 100).state 70).state +
      spiRamFifoFree compiled (spiRamFifoRead compiled 2
        (spiRamFifoWrite compiled 2 (freshState (fun _ => 0)) (ramp 100) 100).state 70).state =
      spiRamFifoLen compiled ∧
    spiRamFifoFill (spiRamFifoRead compiled 2
      (spiRamFifoWrite compiled 2 (freshState (fun _ => 0)) (ramp 100) 100).state 70).state = 30 :=
  have hr : Reachable compiled (spiRamFifoRead compiled 2
      (spiRamFifoWrite compiled 2 (freshState (fun _ => 0)) (ramp 100) 100).state 70).state :=
    reachable_spiRamFifoRead compiled (by decide) 2 _ 70
      (reachable_spiRamFifoWrite compiled (by decide) 2 _ (ramp 100) 100 (Reachable.init _))
  ⟨by decide, hr, (conservation compiled (by decide) _ hr).1, by decide⟩

/-- C8 (bounded backing-store access): from a well-formed state, every
`spiRamRead` issued by `spiRamFifoRead` and every `spiRamWrite` issued by
`spiRamFifoWrite`, for any length and however long the call runs, has offset
`≥ 0`, chunk length between 1 and 64 and `offset + n ≤ capacity`. -/
theorem bounded_access (B : Build) (s : State) (buff : List Byte) (len : Int) (fuel : Nat)
    (hwf : Wf B s) :
    (∀ pos n, Event.spiRamRead pos n ∈ (spiRamFifoRead B fuel s len).log →
      0 ≤ pos ∧ 1 ≤ n ∧ n ≤ 64 ∧ pos + n ≤ B.FIFO_SPIRAMSIZE) ∧
    (∀ pos n, Event.spiRamWrite pos n ∈ (spiRamFifoWrite B fuel s buff len).log →
      0 ≤ pos ∧ 1 ≤ n ∧ n ≤ 64 ∧ pos + n ≤ B.FIFO_SPIRAMSIZE) :=
  ⟨spiRamFifoRead_access B fuel s len hwf, spiRamFifoWrite_access B fuel s buff len hwf⟩

/-- Witness for C8 at capacity 100: writing 100 bytes from offset 80 issues the
transfers (80, 20), (0, 64), (64, 16), and reading them back issues the same
three, each inside the store. -/
theorem bounded_access_witness :
    Wf tiny (emptyAt 80) ∧ Wf tiny fullAt80 ∧
    (spiRamFifoWrite tiny 100 (emptyAt 80) (ramp 100) 100).log =
      [Event.spiRamWrite 80 20, Event.spiRamWrite 0 64, Event.spiRamWrite 64 16] ∧
    (spiRamFifoRead tiny 100 fullAt80 100).log =
      [Event.spiRamRead 80 20, Event.spiRamRead 0 64, Event.spiRamRead 64 16] ∧
    (0 ≤ (80 : Int) ∧ 1 ≤ (20 : Int) ∧ (20 : Int) ≤ 64 ∧ (80 : Int) + 20 ≤ tiny.FIFO_SPIRAMSIZE) ∧
    (0 ≤ (64 : Int) ∧ 1 ≤ (16 : Int) ∧ (16 : Int) ≤ 64 ∧ (64 : Int) + 16 ≤ tiny.FIFO_SPIRAMSIZE) :=
  ⟨by decide, by decide, by decide, by decide,
    (bounded_access tiny (emptyAt 80) (ramp 100) 100 100 (by decide)).2 80 20 (by decide),
    (bounded_access tiny fullAt80 (ramp 100) 100 100 (by decide)).1 64 16 (by decide)⟩

/-- C9 (watermark hysteresis): after a shortfall the reader waits on
`semCanRead` exactly when the fill it observes is below `FIFO_LOWMARK`, and
otherwise retries; in a pass through the loop body that takes the shortfall
branch, the take of `semCanRead` happens exactly when the fill is below the
low watermark, and at or above it the pass only retries: it is not suspended
and leaves `semCanRead` alone. -/
theorem watermark_hysteresis (B : Build) (s : State) (len : Int) :
    (readAfterMiss B s = Event.takeCanRead ↔ s.fifoFill < B.FIFO_LOWMARK) ∧
    (readAfterMiss B s = Event.retry ↔ B.FIFO_LOWMARK ≤ s.fifoFill) ∧
    (s.fifoFill < chunkLen B len s.fifoRpos →
      (Event.takeCanRead ∈ (readIter B s len).events ↔ s.fifoFill < B.FIFO_LOWMARK) ∧
      ((readIter B s len).suspended = true → s.fifoFill < B.FIFO_LOWMARK) ∧
      (s.fifoFill < B.FIFO_LOWMARK →
        (readIter B s len).events = [Event.underflow, Event.takeCanRead] ∧
        (readIter B s len).suspended = !s.semCanRead ∧
        (readIter B s len).state.semCanRead = false) ∧
      (B.FIFO_LOWMARK ≤ s.fifoFill →
        (readIter B s len).events = [Event.underflow, Event.retry] ∧
        (readIter B s len).suspended = false ∧
        (readIter B s len).state.semCanRead = s.semCanRead)) := by
  refine ⟨?_, ?_, ?_⟩
  · unfold readAfterMiss
    split_ifs with h <;> simp [h]
  · unfold readAfterMiss
    split_ifs with h
    · simp; omega
    · simp; omega
  · intro hshort
    by_cases hlow : s.fifoFill < B.FIFO_LOWMARK
    · by_cases hsem : s.semCanRead = true <;>
        simp [readIter, readAfterMiss, readMiss, hshort, hlow, hsem]
    · have hge : B.FIFO_LOWMARK ≤ s.fifoFill := by omega
      simp [readIter, readAfterMiss, readMiss, hshort, hlow, hge]

/-- Witness for C9 on a state holding 10 bytes and a read of 20: with low
watermark 50 the reader takes `semCanRead`; with low watermark 8 it only
retries. -/
theorem watermark_hysteresis_witness :
    (tenBytes.fifoFill < chunkLen tiny 20 tenBytes.fifoRpos ∧
      tenBytes.fifoFill < tiny.FIFO_LOWMARK ∧
      tenBytes.fifoFill < chunkLen shallow 20 tenBytes.fifoRpos ∧
      shallow.FIFO_LOWMARK ≤ tenBytes.fifoFill) ∧
    (readIter tiny tenBytes 20).events = [Event.underflow, Event.takeCanRead] ∧
    (readIter shallow tenBytes 20).events = [Event.underflow, Event.retry] ∧
    (readIter shallow tenBytes 20).suspended = false :=
  ⟨by decide,
    (((watermark_hysteresis tiny tenBytes 20).2.2 (by decide)).2.2.1 (by decide)).1,
    (((watermark_hysteresis shallow tenBytes 20).2.2 (by decide)).2.2.2 (by decide)).1,
    (((watermark_hysteresis shallow tenBytes 20).2.2 (by decide)).2.2.2 (by decide)).2.1⟩

/-- C10 as stated fails: in the compiled build, the empty instance whose
underflow counter stands at `LONG_MAX` is reachable (by that many shortfall
attempts), and one more read attempt, of 20 bytes, takes the shortfall branch
and leaves the counter at `LONG_MIN`, not one higher than before. -/
theorem shortfall_at_long_max_wraps :
    Reachable compiled udrAtMax ∧
    udrAtMax.fifoFill < chunkLen compiled 20 udrAtMax.fifoRpos ∧
    udrAtMax.fifoUdrCnt = LONG_MAX ∧
    (readIter compiled udrAtMax 20).state.fifoUdrCnt = LONG_MIN ∧
    (readIter compiled udrAtMax 20).state.fifoUdrCnt ≠ udrAtMax.fifoUdrCnt + 1 :=
  ⟨reachable_starved 2147483647 (by decide), by decide, by decide, by decide, by decide⟩

/-- C10 amended (shortfall counting): a read attempt with `fill < n` raises the
underflow counter by exactly 1 and a write attempt with `capacity - fill < n`
raises the overflow counter by exactly 1, whatever the number of missing
bytes, as long as the counter is a `long` below `LONG_MAX` (in general the
new value is the old one plus 1 wrapped to 32 bits). The critical section of
such an attempt changes nothing else at all, and the whole pass through the
loop body leaves read offset, write offset, fill, storage, remaining length,
the caller's buffer and the other counter unchanged; a successful pass
changes neither counter. -/
theorem shortfall_counting (B : Build) (s : State) (buff : List Byte) (len : Int) :
    (s.fifoFill < chunkLen B len s.fifoRpos →
      readLocked B s (chunkLen B len s.fifoRpos) =
        { s with fifoUdrCnt := wrapLong (s.fifoUdrCnt + 1) }) ∧
    (B.FIFO_SPIRAMSIZE - s.fifoFill < chunkLen B len s.fifoWpos →
      writeLocked B s buff (chunkLen B len s.fifoWpos) =
        { s with fifoOvfCnt := wrapLong (s.fifoOvfCnt + 1) }) ∧
    (s.fifoFill < chunkLen B len s.fifoRpos → LONG_MIN ≤ s.fifoUdrCnt →
      s.fifoUdrCnt < LONG_MAX →
      (readIter B s len).state.fifoUdrCnt = s.fifoUdrCnt + 1 ∧
      readLocked B s (chunkLen B len s.fifoRpos) =
        { s with fifoUdrCnt := s.fifoUdrCnt + 1 }) ∧
    (B.FIFO_SPIRAMSIZE - s.fifoFill < chunkLen B len s.fifoWpos → LONG_MIN ≤ s.fifoOvfCnt →
      s.fifoOvfCnt < LONG_MAX →
      (writeIter B s buff len).state.fifoOvfCnt = s.fifoOvfCnt + 1 ∧
      writeLocked B s buff (chunkLen B len s.fifoWpos) =
        { s with fifoOvfCnt := s.fifoOvfCnt + 1 }) ∧
    (s.fifoFill < chunkLen B len s.fifoRpos →
      (readIter B s len).state.fifoUdrCnt = wrapLong (s.fifoUdrCnt + 1) ∧
      (readIter B s len).state.fifoOvfCnt = s.fifoOvfCnt ∧
      (readIter B s len).state.fifoRpos = s.fifoRpos ∧
      (readIter B s len).state.fifoWpos = s.fifoWpos ∧
      (readIter B s len).state.fifoFill = s.fifoFill ∧
      (readIter B s len).state.fakespiram = s.fakespiram ∧
      (readIter B s len).len = len ∧
      (readIter B s len).chunk = []) ∧
    (B.FIFO_SPIRAMSIZE - s.fifoFill < chunkLen B len s.fifoWpos →
      (writeIter B s buff len).state.fifoOvfCnt = wrapLong (s.fifoOvfCnt + 1) ∧
      (writeIter B s buff len).state.fifoUdrCnt = s.fifoUdrCnt ∧
      (writeIter B s buff len).state.fifoRpos = s.fifoRpos ∧
      (writeIter B s buff len).state.fifoWpos = s.fifoWpos ∧
      (writeIter B s buff len).state.fifoFill = s.fifoFill ∧
      (writeIter B s buff len).state.fakespiram = s.fakespiram ∧
      (writeIter B s buff len).buffLen = len ∧
      (writeIter B s buff len).buff = buff) ∧
    (¬ s.fifoFill < chunkLen B len s.fifoRpos →
      (readIter B s len).state.fifoUdrCnt = s.fifoUdrCnt ∧
      (readIter B s len).state.fifoOvfCnt = s.fifoOvfCnt) ∧
    (¬ B.FIFO_SPIRAMSIZE - s.fifoFill < chunkLen B len s.fifoWpos →
      (writeIter B s buff len).state.fifoUdrCnt = s.fifoUdrCnt ∧
      (writeIter B s buff len).state.fifoOvfCnt = s.fifoOvfCnt) := by
  refine ⟨?_, ?_, ?_, ?_, ?_, ?_, ?_, ?_⟩
  · intro hshort
    simp [readLocked, hshort, readMiss]
  · intro hshort
    simp [writeLocked, hshort, writeMiss]
  · intro hshort hmin hmax
    have hw := wrapLong_eq (s.fifoUdrCnt + 1) (by omega) (by omega)
    refine ⟨?_, ?_⟩
    · rw [((readIter_counters B s len).2.1 hshort).1, hw]
    · simp [readLocked, hshort, readMiss, hw]
  · intro hshort hmin hmax
    have hw := wrapLong_eq (s.fifoOvfCnt + 1) (by omega) (by omega)
    refine ⟨?_, ?_⟩
    · rw [((writeIter_counters B s buff len).2.1 hshort).1, hw]
    · simp [writeLocked, hshort, writeMiss, hw]
  · intro hshort
    unfold readIter
    simp only [hshort, if_true]
    split_ifs <;> simp [readMiss]
  · intro hshort
    unfold writeIter
    simp only [hshort, if_true]
    split_ifs <;> simp [writeMiss]
  · intro hok
    simp [readIter, hok, readHit]
  · intro hok
    simp [writeIter, hok, writeHit]

/-- Witness for C10 at capacity 100: with 10 bytes buffered and the counters at
0, a read of 20 (10 bytes missing) and a read of 64 (54 missing) each add
exactly 1 to the underflow counter; on the full buffer a write adds exactly 1
to the overflow counter; a read of 5 changes neither. -/
theorem shortfall_counting_witness :
    (tenBytes.fifoFill < chunkLen tiny 20 tenBytes.fifoRpos ∧
      tenBytes.fifoFill < chunkLen tiny 64 tenBytes.fifoRpos ∧
      LONG_MIN ≤ tenBytes.fifoUdrCnt ∧ tenBytes.fifoUdrCnt < LONG_MAX ∧
      tiny.FIFO_SPIRAMSIZE - fullAt80.fifoFill < chunkLen tiny 1 fullAt80.fifoWpos ∧
      LONG_MIN ≤ fullAt80.fifoOvfCnt ∧ fullAt80.fifoOvfCnt < LONG_MAX ∧
      ¬ tenBytes.fifoFill < chunkLen tiny 5 tenBytes.fifoRpos) ∧
    (readIter tiny tenBytes 20).state.fifoUdrCnt = tenBytes.fifoUdrCnt + 1 ∧
    (readIter tiny tenBytes 64).state.fifoUdrCnt = tenBytes.fifoUdrCnt + 1 ∧
    (writeIter tiny fullAt80 [255] 1).state.fifoOvfCnt = fullAt80.fifoOvfCnt + 1 ∧
    (readIter tiny tenBytes 5).state.fifoUdrCnt = tenBytes.fifoUdrCnt :=
  ⟨by decide,
    ((shortfall_counting tiny tenBytes [] 20).2.2.1 (by decide) (by decide) (by decide)).1,
    ((shortfall_counting tiny tenBytes [] 64).2.2.1 (by decide) (by decide) (by decide)).1,
    ((shortfall_counting tiny fullAt80 [255] 1).2.2.2.1 (by decide) (by decide) (by decide)).1,
    ((shortfall_counting tiny tenBytes [] 5).2.2.2.2.2.2.1 (by decide)).1⟩

/-- C11 as stated fails: on the full capacity-100 instance whose overflow
counter is 1, `spiRamFifoReset` returns and leaves `spiRamGetOverrunCt()` at
0, lower than before the call. -/
theorem reset_lowers_counter :
    (spiRamFifoReset overflowed).status = Status.returned ∧
    spiRamGetOverrunCt overflowed = 1 ∧
    spiRamGetOverrunCt (spiRamFifoReset overflowed).state = 0 ∧
    spiRamGetOverrunCt (spiRamFifoReset overflowed).state < spiRamGetOverrunCt overflowed := by
  decide

/-- C11 amended (counter monotonicity between resets, short of overflow):
`spiRamFifoRead` never changes the overflow counter and `spiRamFifoWrite`
never changes the underflow counter; when the counter of a call's own side is
a `long` that the call's shortfall attempts do not take past `LONG_MAX`, the
call leaves it at its old value plus the number of those attempts, so never
lower than before, however the call ends; `spiRamFifoReset` sets both
counters to 0. The query functions only read the state. -/
theorem counters_monotone_between_resets (B : Build) (s : State) (buff : List Byte)
    (len : Int) (fuel : Nat) :
    (spiRamGetOverrunCt (spiRamFifoRead B fuel s len).state = spiRamGetOverrunCt s ∧
      (LONG_MIN ≤ spiRamGetUnderrunCt s →
        spiRamGetUnderrunCt s + (underflows (spiRamFifoRead B fuel s len).log : Int) ≤
          LONG_MAX →
        spiRamGetUnderrunCt (spiRamFifoRead B fuel s len).state =
          spiRamGetUnderrunCt s + (underflows (spiRamFifoRead B fuel s len).log : Int) ∧
        spiRamGetUnderrunCt s ≤ spiRamGetUnderrunCt (spiRamFifoRead B fuel s len).state)) ∧
    (spiRamGetUnderrunCt (spiRamFifoWrite B fuel s buff len).state = spiRamGetUnderrunCt s ∧
      (LONG_MIN ≤ spiRamGetOverrunCt s →
        spiRamGetOverrunCt s + (overflows (spiRamFifoWrite B fuel s buff len).log : Int) ≤
          LONG_MAX →
        spiRamGetOverrunCt (spiRamFifoWrite B fuel s buff len).state =
          spiRamGetOverrunCt s + (overflows (spiRamFifoWrite B fuel s buff len).log : Int) ∧
        spiRamGetOverrunCt s ≤ spiRamGetOverrunCt (spiRamFifoWrite B fuel s buff len).state)) ∧
    (spiRamGetOverrunCt (spiRamFifoReset s).state = 0 ∧
      spiRamGetUnderrunCt (spiRamFifoReset s).state = 0) := by
  refine ⟨⟨spiRamFifoRead_ovf B fuel s len, ?_⟩, ⟨spiRamFifoWrite_udr B fuel s buff len, ?_⟩, ?_⟩
  · intro hmin hmax
    have h := spiRamFifoRead_udr B fuel s len hmin hmax
    unfold spiRamGetUnderrunCt
    exact ⟨h, by omega⟩
  · intro hmin hmax
    have h := spiRamFifoWrite_ovf B fuel s buff len hmin hmax
    unfold spiRamGetOverrunCt
    exact ⟨h, by omega⟩
  · unfold spiRamFifoReset spiRamGetOverrunCt spiRamGetUnderrunCt
    by_cases h : s.semCanRead = true <;> simp [h]

/-- Witness for C11 at capacity 100: with 10 bytes buffered and both counters
at 0, a read of 20 makes two shortfall attempts before it is suspended and
leaves the underflow counter at 2; on the full buffer a one-byte write makes
two and leaves the overflow counter at 2. -/
theorem counters_monotone_between_resets_witness :
    (LONG_MIN ≤ spiRamGetUnderrunCt tenBytes ∧
      spiRamGetUnderrunCt tenBytes + (underflows (spiRamFifoRead tiny 5 tenBytes 20).log : Int) ≤
        LONG_MAX ∧
      LONG_MIN ≤ spiRamGetOverrunCt fullAt80 ∧
      spiRamGetOverrunCt fullAt80 +
        (overflows (spiRamFifoWrite tiny 5 fullAt80 [255] 1).log : Int) ≤ LONG_MAX) ∧
    underflows (spiRamFifoRead tiny 5 tenBytes 20).log = 2 ∧
    spiRamGetUnderrunCt tenBytes ≤ spiRamGetUnderrunCt (spiRamFifoRead tiny 5 tenBytes 20).state ∧
    spiRamGetUnderrunCt (spiRamFifoRead tiny 5 tenBytes 20).state = 2 ∧
    spiRamGetOverrunCt fullAt80 ≤
      spiRamGetOverrunCt (spiRamFifoWrite tiny 5 fullAt80 [255] 1).state ∧
    spiRamGetOverrunCt (spiRamFifoWrite tiny 5 fullAt80 [255] 1).state = 2 :=
  ⟨by decide, by decide,
    ((counters_monotone_between_resets tiny tenBytes [] 20 5).1.2 (by decide) (by decide)).2,
    by decide,
    ((counters_monotone_between_resets tiny fullAt80 [255] 1 5).2.1.2 (by decide) (by decide)).2,
    by decide⟩

/-- C12 (counters never influence behaviour): for two states that agree on
read offset, write offset, fill, storage and both semaphores, whatever their
counters, `spiRamFifoRead`, `spiRamFifoWrite` and `spiRamFifoReset` end the
same way, log the same events (take the same branches), return the same bytes
and remaining lengths and leave states that again agree on everything but the
counters; `spiRamFifoFill` and `spiRamFifoFree` return the same values. -/
theorem counters_do_not_influence (B : Build) (s t : State) (buff : List Byte) (len : Int)
    (fuel : Nat) (h : SameButCounters s t) :
    ((spiRamFifoRead B fuel s len).status = (spiRamFifoRead B fuel t len).status ∧
      (spiRamFifoRead B fuel s len).out = (spiRamFifoRead B fuel t len).out ∧
      (spiRamFifoRead B fuel s len).len = (spiRamFifoRead B fuel t len).len ∧
      (spiRamFifoRead B fuel s len).log = (spiRamFifoRead B fuel t len).log ∧
      SameButCounters (spiRamFifoRead B fuel s len).state
        (spiRamFifoRead B fuel t len).state) ∧
    ((spiRamFifoWrite B fuel s buff len).status = (spiRamFifoWrite B fuel t buff len).status ∧
      (spiRamFifoWrite B fuel s buff len).buffLen =
        (spiRamFifoWrite B fuel t buff len).buffLen ∧
      (spiRamFifoWrite B fuel s buff len).log = (spiRamFifoWrite B fuel t buff len).log ∧
      SameButCounters (spiRamFifoWrite B fuel s buff len).state
        (spiRamFifoWrite B fuel t buff len).state) ∧
    ((spiRamFifoReset s).status = (spiRamFifoReset t).status ∧
      SameButCounters (spiRamFifoReset s).state (spiRamFifoReset t).state) ∧
    spiRamFifoFill s = spiRamFifoFill t ∧
    spiRamFifoFree B s = spiRamFifoFree B t := by
  refine ⟨spiRamFifoRead_same B fuel s t len h, spiRamFifoWrite_same B fuel s t buff len h,
    ?_, h.2.2.1, ?_⟩
  · obtain ⟨h1, h2, h3, h4, h5, h6⟩ := h
    unfold spiRamFifoReset SameButCounters
    simp [h4, h6]
  · unfold spiRamFifoFree spiRamFifoFill
    rw [h.2.2.1]

/-- Witness for C12 at capacity 100: the instance holding 10 bytes with
counters (0, 0) and with counters (5, 9); a read of 20 bytes falls short in
both and logs the same two events; a read of 8 returns the same bytes. -/
theorem counters_do_not_influence_witness :
    SameButCounters tenBytes tenBytesCounted ∧
    tenBytes.fifoOvfCnt ≠ tenBytesCounted.fifoOvfCnt ∧
    (spiRamFifoRead tiny 3 tenBytes 20).log = [Event.underflow, Event.takeCanRead,
      Event.underflow, Event.takeCanRead] ∧
    (spiRamFifoRead tiny 3 tenBytesCounted 20).log = [Event.underflow, Event.takeCanRead,
      Event.underflow, Event.takeCanRead] ∧
    (spiRamFifoRead tiny 3 tenBytes 8).out = (spiRamFifoRead tiny 3 tenBytesCounted 8).out ∧
    (spiRamFifoWrite tiny 3 tenBytes (ramp 5) 5).status =
      (spiRamFifoWrite tiny 3 tenBytesCounted (ramp 5) 5).status :=
  have hs : SameButCounters tenBytes tenBytesCounted := ⟨rfl, rfl, rfl, rfl, rfl, rfl⟩
  ⟨hs, by decide, by decide,
    (counters_do_not_influence tiny tenBytes tenBytesCounted [] 20 3 hs).1.2.2.2.1 ▸ by decide,
    (counters_do_not_influence tiny tenBytes tenBytesCounted [] 8 3 hs).1.2.1,
    (counters_do_not_influence tiny tenBytes tenBytesCounted (ramp 5) 5 3 hs).2.1.1⟩

/-- C13 (state invariant): for a positive capacity, the predicate
`0 ≤ r < C`, `0 ≤ w < C`, `0 ≤ f ≤ C`, `w = (r + f) mod C` holds after
`spiRamFifoInit`, holds after `spiRamFifoReset` from any state, and is
preserved by every pass of the reader's and of the writer's loop body
(successful or shortfall), by their critical sections also when the chunk
length was computed before a reset, by whole calls of any length however they
end, and so holds in every state reachable by interleaving these steps. -/
theorem state_invariant (B : Build) (hC : 0 < B.FIFO_SPIRAMSIZE) :
    (∀ (alloc : Option (Int → Byte)) (s : State), (spiRamFifoInit alloc).2 = some s → Wf B s) ∧
    (∀ s : State, Wf B (spiRamFifoReset s).state) ∧
    (∀ (s : State) (len : Int), Wf B s → 0 < len → Wf B (readIter B s len).state) ∧
    (∀ (s : State) (buff : List Byte) (len : Int), Wf B s → 0 < len →
      Wf B (writeIter B s buff len).state) ∧
    (∀ (s : State) (len pos : Int), Wf B s → 0 < len → 0 ≤ pos → pos < B.FIFO_SPIRAMSIZE →
      (s.fifoRpos = pos ∨ s.fifoRpos = 0) → Wf B (readLocked B s (chunkLen B len pos))) ∧
    (∀ (s : State) (buff : List Byte) (len pos : Int), Wf B s → 0 < len → 0 ≤ pos →
      pos < B.FIFO_SPIRAMSIZE → (s.fifoWpos = pos ∨ s.fifoWpos = 0) →
      Wf B (writeLocked B s buff (chunkLen B len pos))) ∧
    (∀ (s : State) (len : Int) (fuel : Nat), Wf B s → Wf B (spiRamFifoRead B fuel s len).state) ∧
    (∀ (s : State) (buff : List Byte) (len : Int) (fuel : Nat), Wf B s →
      Wf B (spiRamFifoWrite B fuel s buff len).state) ∧
    (∀ s : State, Reachable B s → Wf B s) := by
  refine ⟨?_, spiRamFifoReset_wf B hC, readIter_wf B, writeIter_wf B, readLocked_wf B,
    writeLocked_wf B, fun s len fuel h => spiRamFifoRead_wf B fuel s len h,
    fun s buff len fuel h => spiRamFifoWrite_wf B fuel s buff len h, reachable_wf B hC⟩
  intro alloc s h
  cases alloc with
  | none => simp [spiRamFifoInit] at h
  | some mem =>
    simp only [spiRamFifoInit, Option.map_some', Option.some.injEq] at h
    subst h
    exact wf_of_zero B hC _ rfl rfl rfl

/-- Witness for C13 in the compiled build: the state after initialisation, the
state after a write of 100 bytes and a read of 70 that follows, and the state
after a reset of that, all satisfy the invariant. -/
theorem state_invariant_witness :
    0 < compiled.FIFO_SPIRAMSIZE ∧
    Wf compiled (freshState (fun _ => 0)) ∧
    Wf compiled (spiRamFifoRead compiled 2
      (spiRamFifoWrite compiled 2 (freshState (fun _ => 0)) (ramp 100) 100).state 70).state ∧
    Wf compiled (spiRamFifoReset (spiRamFifoRead compiled 2
      (spiRamFifoWrite compiled 2 (freshState (fun _ => 0)) (ramp 100) 100).state 70).state).state :=
  have h := state_invariant compiled (by decide)
  have h0 : Wf compiled (freshState (fun _ => 0)) := h.1 (some (fun _ => 0)) _ rfl
  ⟨by decide, h0,
    h.2.2.2.2.2.2.1 _ 70 2 (h.2.2.2.2.2.2.2.1 _ (ramp 100) 100 2 h0),
    h.2.1 _⟩

/-- C14 (offset advance is modular addition): in a well-formed state, a
successful chunk of length `n` leaves the offset it advances, by
`pos += n; if (pos >= C) pos = 0`, at exactly `(pos + n) mod C`: the read
offset in `spiRamFifoRead`, the write offset in `spiRamFifoWrite`. -/
theorem offset_advance (B : Build) (s : State) (buff : List Byte) (len : Int)
    (hwf : Wf B s) (hlen : 0 < len) :
    (¬ s.fifoFill < chunkLen B len s.fifoRpos →
      (readIter B s len).state.fifoRpos =
          (s.fifoRpos + chunkLen B len s.fifoRpos) % B.FIFO_SPIRAMSIZE ∧
        (if s.fifoRpos + chunkLen B len s.fifoRpos ≥ B.FIFO_SPIRAMSIZE then 0
          else s.fifoRpos + chunkLen B len s.fifoRpos) =
          (s.fifoRpos + chunkLen B len s.fifoRpos) % B.FIFO_SPIRAMSIZE) ∧
    (¬ B.FIFO_SPIRAMSIZE - s.fifoFill < chunkLen B len s.fifoWpos →
      (writeIter B s buff len).state.fifoWpos =
          (s.fifoWpos + chunkLen B len s.fifoWpos) % B.FIFO_SPIRAMSIZE ∧
        (if s.fifoWpos + chunkLen B len s.fifoWpos ≥ B.FIFO_SPIRAMSIZE then 0
          else s.fifoWpos + chunkLen B len s.fifoWpos) =
          (s.fifoWpos + chunkLen B len s.fifoWpos) % B.FIFO_SPIRAMSIZE) := by
  obtain ⟨r1, r2, r3, r4⟩ := chunkLen_bounds B len s.fifoRpos hlen hwf.2.1
  obtain ⟨w1, w2, w3, w4⟩ := chunkLen_bounds B len s.fifoWpos hlen hwf.2.2.2.1
  have hr := wrap_eq_emod B.FIFO_SPIRAMSIZE s.fifoRpos (chunkLen B len s.fifoRpos) hwf.1
    (by omega) (by omega)
  have hw := wrap_eq_emod B.FIFO_SPIRAMSIZE s.fifoWpos (chunkLen B len s.fifoWpos) hwf.2.2.1
    (by omega) (by omega)
  refine ⟨fun hok => ⟨?_, hr⟩, fun hok => ⟨?_, hw⟩⟩
  · rw [← hr]
    simp [readIter, hok, readHit]
  · rw [← hw]
    simp [writeIter, hok, writeHit]

/-- Witness for C14 at capacity 100: with both offsets at 80, a read of 50
from the full buffer and a write of 50 into the empty one each move 20 bytes
and leave the offset at 0 = (80 + 20) mod 100; a read of 10 from offset 0
leaves it at 10. -/
theorem offset_advance_witness :
    (Wf tiny fullAt80 ∧ Wf tiny (emptyAt 80) ∧ Wf tiny tenBytes ∧ (0 : Int) < 50 ∧
      ¬ fullAt80.fifoFill < chunkLen tiny 50 fullAt80.fifoRpos ∧
      ¬ tiny.FIFO_SPIRAMSIZE - (emptyAt 80).fifoFill < chunkLen tiny 50 (emptyAt 80).fifoWpos ∧
      ¬ tenBytes.fifoFill < chunkLen tiny 10 tenBytes.fifoRpos) ∧
    (readIter tiny fullAt80 50).state.fifoRpos = (80 + 20) % 100 ∧
    (writeIter tiny (emptyAt 80) (ramp 50) 50).state.fifoWpos = (80 + 20) % 100 ∧
    (readIter tiny tenBytes 10).state.fifoRpos = (0 + 10) % 100 :=
  ⟨by decide,
    ((offset_advance tiny fullAt80 [] 50 (by decide) (by decide)).1 (by decide)).1,
    ((offset_advance tiny (emptyAt 80) (ramp 50) 50 (by decide) (by decide)).2 (by decide)).1,
    ((offset_advance tiny tenBytes [] 10 (by decide) (by decide)).1 (by decide)).1⟩

/-- C15 (the retry path is dead in the compiled build): with
`SPIREADSIZE = 64`, `FIFO_LOWMARK = 114688` and `FIFO_SPIRAMSIZE = 204800`,
a read attempt that takes the shortfall branch has `fifoFill` below
`FIFO_LOWMARK`, so with the fill unchanged between the two checks the reader
goes on to take `semCanRead`; no run of `spiRamFifoRead` ever logs a retry. -/
theorem retry_path_dead (s : State) (len : Int) (fuel : Nat) :
    (SPIREADSIZE = 64 ∧ compiled.FIFO_LOWMARK = 114688 ∧ compiled.FIFO_SPIRAMSIZE = 204800) ∧
    (s.fifoFill < chunkLen compiled len s.fifoRpos →
      s.fifoFill < compiled.FIFO_LOWMARK ∧
      readAfterMiss compiled (readMiss s) = Event.takeCanRead ∧
      (readIter compiled s len).events = [Event.underflow, Event.takeCanRead]) ∧
    Event.retry ∉ (spiRamFifoRead compiled fuel s len).log := by
  refine ⟨⟨rfl, rfl, rfl⟩, ?_, spiRamFifoRead_compiled_log fuel s len⟩
  intro hshort
  have hn := chunkLen_le_size compiled len s.fifoRpos
  have hlow : s.fifoFill < compiled.FIFO_LOWMARK := by
    show s.fifoFill < 112 * 1024
    omega
  refine ⟨hlow, ?_, ?_⟩
  · simp [readAfterMiss, readMiss, hlow]
  · by_cases hsem : s.semCanRead = true <;>
      simp [readIter, readAfterMiss, readMiss, hshort, hlow, hsem]

/-- Witness for C15: in the compiled build, with 10 bytes buffered, a read of
20 falls short, takes `semCanRead` and then is suspended on it. -/
theorem retry_path_dead_witness :
    tenBytes.fifoFill < chunkLen compiled 20 tenBytes.fifoRpos ∧
    (readIter compiled tenBytes 20).events = [Event.underflow, Event.takeCanRead] ∧
    (spiRamFifoRead compiled 5 tenBytes 20).status = Status.blocked ∧
    (spiRamFifoRead compiled 5 tenBytes 20).log =
      [Event.underflow, Event.takeCanRead, Event.underflow, Event.takeCanRead] :=
  ⟨by decide, ((retry_path_dead tenBytes 20 5).2.1 (by decide)).2.2, by decide, by decide⟩

/-- C16 (reset after reset): with the semaphores as booleans, `mux` available
and no other thread inside the interface, `spiRamFifoReset` returns exactly
when `semCanRead` is available on entry, and otherwise is suspended holding
`mux`, where nothing the other threads start can change the instance; when it
returns, `semCanRead` is
clear, `semCanWrite` is set and `mux` is available again; a second
`spiRamFifoReset` entered then is suspended holding `mux` with `semCanRead`
clear, and whatever the other threads start next (reads, writes, resets) is
suspended on `mux` and changes nothing, so `semCanRead` is never given and
the call never returns. After a successful write chunk, which gives
`semCanRead`, a reset does return. -/
theorem reset_after_reset_blocks (B : Build) (s : State) (buff : List Byte) (n : Int)
    (ops : List Op) :
    ((resetGuarded ⟨s, true⟩).status = Status.returned ↔ s.semCanRead = true) ∧
    ((resetGuarded ⟨s, true⟩).status = (spiRamFifoReset s).status ∧
      (resetGuarded ⟨s, true⟩).after.state = (spiRamFifoReset s).state) ∧
    (s.semCanRead = false →
      (resetGuarded ⟨s, true⟩).status = Status.blocked ∧
      (resetGuarded ⟨s, true⟩).after.mux = false ∧
      (resetGuarded ⟨s, true⟩).after.state.semCanRead = false ∧
      attempts B (resetGuarded ⟨s, true⟩).after ops = (resetGuarded ⟨s, true⟩).after) ∧
    ((resetGuarded ⟨s, true⟩).status = Status.returned →
      (resetGuarded ⟨s, true⟩).after.state.semCanRead = false ∧
      (resetGuarded ⟨s, true⟩).after.state.semCanWrite = true ∧
      (resetGuarded ⟨s, true⟩).after.mux = true ∧
      (resetGuarded (resetGuarded ⟨s, true⟩).after).status = Status.blocked ∧
      (resetGuarded (resetGuarded ⟨s, true⟩).after).after.mux = false ∧
      (resetGuarded (resetGuarded ⟨s, true⟩).after).after.state.semCanRead = false ∧
      attempts B (resetGuarded (resetGuarded ⟨s, true⟩).after).after ops =
        (resetGuarded (resetGuarded ⟨s, true⟩).after).after) ∧
    (resetGuarded ⟨writeHit B s buff n, true⟩).status = Status.returned := by
  refine ⟨?_, ?_, ?_, ?_, ?_⟩
  · by_cases h : s.semCanRead = true <;> simp [resetGuarded, h]
  · by_cases h : s.semCanRead = true <;> simp [resetGuarded, spiRamFifoReset, h]
  · intro hclear
    have hheld : (resetGuarded ⟨s, true⟩).after.mux = false := by
      simp [resetGuarded, hclear]
    refine ⟨?_, hheld, ?_, attempts_held B _ hheld ops⟩ <;> simp [resetGuarded, hclear]
  · intro hret
    have hsem : s.semCanRead = true := by
      by_cases h : s.semCanRead = true
      · exact h
      · simp [resetGuarded, h] at hret
    have hsecond : (resetGuarded (resetGuarded ⟨s, true⟩).after).after.mux = false := by
      simp [resetGuarded, hsem]
    refine ⟨?_, ?_, ?_, ?_, hsecond, ?_, attempts_held B _ hsecond ops⟩ <;>
      simp [resetGuarded, hsem]
  · simp [resetGuarded, writeHit]

/-- Witness for C16 on the full capacity-100 instance, whose `semCanRead` is
available: the first reset returns, the second is suspended holding `mux`,
and a read, a write and a third reset attempted afterwards change nothing. -/
theorem reset_after_reset_blocks_witness :
    (resetGuarded ⟨fullAt80, true⟩).status = Status.returned ∧
    (resetGuarded (resetGuarded ⟨fullAt80, true⟩).after).status = Status.blocked ∧
    (resetGuarded (resetGuarded ⟨fullAt80, true⟩).after).after.mux = false ∧
    attempts tiny (resetGuarded (resetGuarded ⟨fullAt80, true⟩).after).after
        [Op.read 10, Op.write [1, 2] 2, Op.reset] =
      (resetGuarded (resetGuarded ⟨fullAt80, true⟩).after).after :=
  have hret : (resetGuarded ⟨fullAt80, true⟩).status = Status.returned := by decide
  have h := (reset_after_reset_blocks tiny fullAt80 [] 0
    [Op.read 10, Op.write [1, 2] 2, Op.reset]).2.2.2.1 hret
  ⟨hret, h.2.2.2.1, h.2.2.2.2.1, h.2.2.2.2.2.2⟩

/-- C17 (producer/consumer frame): a pass of the reader's loop body, and its
critical section for any chunk length, leaves the write offset and the whole
backing store unchanged; a pass of the writer's loop body, and its critical
section for any chunk length `n`, leaves the read offset and every byte
outside `[w, w + n)` unchanged; so the chunk length the reader computes from
its offset is the same after any passes of the writer, and the writer's the
same after any passes of the reader. -/
theorem producer_consumer_frame (B : Build) (s : State) (buff : List Byte) (len n : Int)
    (reads : List Int) (writes : List (List Byte × Int)) :
    ((readIter B s len).state.fifoWpos = s.fifoWpos ∧
      (readIter B s len).state.fakespiram = s.fakespiram) ∧
    ((readLocked B s n).fifoWpos = s.fifoWpos ∧
      (readLocked B s n).fakespiram = s.fakespiram) ∧
    ((writeIter B s buff len).state.fifoRpos = s.fifoRpos ∧
      ∀ a : Int, ¬ (s.fifoWpos ≤ a ∧ a < s.fifoWpos + chunkLen B len s.fifoWpos) →
        (writeIter B s buff len).state.fakespiram a = s.fakespiram a) ∧
    ((writeLocked B s buff n).fifoRpos = s.fifoRpos ∧
      ∀ a : Int, ¬ (s.fifoWpos ≤ a ∧ a < s.fifoWpos + n) →
        (writeLocked B s buff n).fakespiram a = s.fakespiram a) ∧
    chunkLen B len (writePasses B s writes).fifoRpos = chunkLen B len s.fifoRpos ∧
    chunkLen B len (readPasses B s reads).fifoWpos = chunkLen B len s.fifoWpos := by
  refine ⟨readIter_frame B s len, ?_, writeIter_frame B s buff len, ?_, ?_, ?_⟩
  · unfold readLocked
    split_ifs <;> simp [readMiss, readHit]
  · unfold writeLocked
    split_ifs
    · simp [writeMiss]
    · refine ⟨rfl, ?_⟩
      intro a ha
      show spiRamWrite s.fakespiram s.fifoWpos buff n a = _
      unfold spiRamWrite
      rw [if_neg ha]
  · rw [writePasses_rpos]
  · rw [readPasses_wpos]

/-- Witness for C17 at capacity 100: a write pass of 50 bytes at offset 80
stores into `[80, 100)` and leaves the byte at offset 5 and the read offset as
they were; after two writer passes on the instance holding 10 bytes the
reader still computes the chunk length 30, and after two reader passes the
writer still computes 30. -/
theorem producer_consumer_frame_witness :
    ¬ ((emptyAt 80).fifoWpos ≤ 5 ∧ 5 < (emptyAt 80).fifoWpos +
      chunkLen tiny 50 (emptyAt 80).fifoWpos) ∧
    (writeIter tiny (emptyAt 80) (ramp 50) 50).state.fakespiram 5 = (emptyAt 80).fakespiram 5 ∧
    (writeIter tiny (emptyAt 80) (ramp 50) 50).state.fifoRpos = 80 ∧
    chunkLen tiny 30 (writePasses tiny tenBytes [(ramp 5, 5), (ramp 7, 7)]).fifoRpos = 30 ∧
    chunkLen tiny 30 (readPasses tiny tenBytes [4, 3]).fifoWpos = 30 :=
  ⟨by decide,
    (producer_consumer_frame tiny (emptyAt 80) (ramp 50) 50 0 [] []).2.2.1.2 5 (by decide),
    (producer_consumer_frame tiny (emptyAt 80) (ramp 50) 50 0 [] []).2.2.1.1,
    (producer_consumer_frame tiny tenBytes [] 30 0 [] [(ramp 5, 5), (ramp 7, 7)]).2.2.2.2.1 ▸
      by decide,
    (producer_consumer_frame tiny tenBytes [] 30 0 [4, 3] []).2.2.2.2.2 ▸ by decide⟩

/-- C18 (loop progress): the chunk length is `min(len, 64, capacity - offset)`;
in a well-formed state with `len > 0` it satisfies `1 ≤ n ≤ len`, so a
successful pass leaves a remaining length that is smaller and not negative; a
read with `len ≤ fill` and a write with `len ≤ free` return after at most
`len` passes with remaining length 0; a call with `len ≤ 0` returns at once,
for any fuel, with the state unchanged. -/
theorem loop_progress (B : Build) (s : State) (buff : List Byte) (len : Int) (fuel : Nat) :
    (∀ pos : Int, chunkLen B len pos = min len (min 64 (B.FIFO_SPIRAMSIZE - pos))) ∧
    (Wf B s → 0 < len →
      (1 ≤ chunkLen B len s.fifoRpos ∧ chunkLen B len s.fifoRpos ≤ len) ∧
      (1 ≤ chunkLen B len s.fifoWpos ∧ chunkLen B len s.fifoWpos ≤ len) ∧
      (¬ s.fifoFill < chunkLen B len s.fifoRpos →
        (readIter B s len).len < len ∧ 0 ≤ (readIter B s len).len) ∧
      (¬ B.FIFO_SPIRAMSIZE - s.fifoFill < chunkLen B len s.fifoWpos →
        (writeIter B s buff len).buffLen < len ∧ 0 ≤ (writeIter B s buff len).buffLen)) ∧
    (Wf B s → 0 < len → len ≤ spiRamFifoFill s → len.toNat ≤ fuel →
      (spiRamFifoRead B fuel s len).status = Status.returned ∧
      (spiRamFifoRead B fuel s len).len = 0) ∧
    (Wf B s → (buff.length : Int) ≤ spiRamFifoFree B s → buff.length ≤ fuel →
      (spiRamFifoWrite B fuel s buff buff.length).status = Status.returned ∧
      (spiRamFifoWrite B fuel s buff buff.length).buffLen = 0) ∧
    (len ≤ 0 →
      spiRamFifoRead B fuel s len = ⟨Status.returned, s, [], len, []⟩ ∧
      spiRamFifoWrite B fuel s buff len = ⟨Status.returned, s, len, []⟩) := by
  refine ⟨?_, ?_, ?_, ?_, ?_⟩
  · intro pos
    unfold chunkLen SPIREADSIZE
    simp only [min_def]
    split_ifs <;> omega
  · intro hwf hlen
    obtain ⟨r1, r2, r3, r4⟩ := chunkLen_bounds B len s.fifoRpos hlen hwf.2.1
    obtain ⟨w1, w2, w3, w4⟩ := chunkLen_bounds B len s.fifoWpos hlen hwf.2.2.2.1
    refine ⟨⟨r1, r2⟩, ⟨w1, w2⟩, ?_, ?_⟩
    · intro hok
      have : (readIter B s len).len = len - chunkLen B len s.fifoRpos := by
        simp [readIter, hok]
      omega
    · intro hok
      have : (writeIter B s buff len).buffLen = len - chunkLen B len s.fifoWpos := by
        simp [writeIter, hok]
      omega
  · intro hwf hlen hfill hfuel
    obtain ⟨k, rfl⟩ := Int.eq_ofNat_of_zero_le (by omega : 0 ≤ len)
    obtain ⟨a1, a2, _⟩ := spiRamFifoRead_ok B fuel s k hwf hfill (by simpa using hfuel)
    exact ⟨a1, a2⟩
  · intro hwf hfree hfuel
    obtain ⟨a1, a2, _⟩ := spiRamFifoWrite_ok B fuel s buff hwf hfree hfuel
    exact ⟨a1, a2⟩
  · intro hlen
    refine ⟨spiRamFifoRead_nonpos B fuel s len hlen, ?_⟩
    have : ¬ 0 < len := by omega
    cases fuel <;> simp [spiRamFifoWrite, this]

/-- Witness for C18 at capacity 100: from the full buffer at offset 80 a read
of 100 takes the chunks 20, 64, 16 and returns with fuel 3; into the empty
buffer a write of 100 does the same; a read of length 0 or -5 returns at once
with no fuel. -/
theorem loop_progress_witness :
    (Wf tiny fullAt80 ∧ Wf tiny (emptyAt 80) ∧ (0 : Int) < 100 ∧
      (100 : Int) ≤ spiRamFifoFill fullAt80 ∧
      (((ramp 100).length : Nat) : Int) ≤ spiRamFifoFree tiny (emptyAt 80) ∧
      (ramp 100).length ≤ 100 ∧ (100 : Int).toNat ≤ 100 ∧ (-5 : Int) ≤ 0) ∧
    chunkLen tiny 100 fullAt80.fifoRpos = 20 ∧
    (readIter tiny fullAt80 100).len = 80 ∧
    (spiRamFifoRead tiny 100 fullAt80 100).status = Status.returned ∧
    (spiRamFifoRead tiny 100 fullAt80 100).len = 0 ∧
    (spiRamFifoRead tiny 3 fullAt80 100).status = Status.returned ∧
    (spiRamFifoWrite tiny 100 (emptyAt 80) (ramp 100) (ramp 100).length).buffLen = 0 ∧
    (spiRamFifoRead tiny 0 fullAt80 (-5)).status = Status.returned :=
  have hr := (loop_progress tiny fullAt80 [] 100 100).2.2.1
    (by decide) (by decide) (by decide) (by decide)
  have hw := (loop_progress tiny (emptyAt 80) (ramp 100) 100 100).2.2.2.1
    (by decide) (by decide) (by decide)
  have hz := (loop_progress tiny fullAt80 [] (-5) 0).2.2.2.2 (by decide)
  ⟨by decide, by decide, by decide, hr.1, hr.2, by decide, hw.2, by rw [hz.1]⟩

end SpiRamFifo
